import Mathlib

/-!
# Verification of `tools/hist/fiologparser_hist.py`

A shallow embedding of the core of `fiologparser_hist.py` (fio's latency
histogram log post-processor) together with proofs about its claimed
properties.

Conventions of the embedding:
* Python/numpy floats are modelled as `ℚ`.  All float computations appearing
  in the program on the inputs considered here are exact over `ℚ` (integer
  data, halving, division), so no rounding model is needed.
* numpy float division is the one place where IEEE special values can arise
  in this program (`weights` divides by `end_ts - start_ts`, which the program
  allows to be zero).  Division results are therefore modelled by `NpVal`,
  which is either a finite rational or one of `+inf`, `-inf`, `nan`,
  following IEEE-754 division of a finite numerator by (positive) zero.
* integer-valued data (timestamps, histogram counts, indices) is modelled by
  `ℕ`/`ℤ` as appropriate.
-/

namespace FioHist

/-- Result of a numpy float division: a finite rational or an IEEE special
value.  Only division introduces specials here; its operands are finite. -/
inductive NpVal where
  | fin (q : ℚ)
  | pinf
  | ninf
  | nan
deriving DecidableEq, Repr

/-- numpy float division of finite operands: `a / b`.  When `b = 0` (the
subtraction `x - x` of equal floats yields `+0.0`), IEEE-754 gives `nan` for
`0/0`, `+inf` for positive `a`, `-inf` for negative `a`. -/
def npdiv (a b : ℚ) : NpVal :=
  if b = 0 then
    if a = 0 then .nan else if 0 < a then .pinf else .ninf
  else .fin (a / b)

/-- Embedding of `weights(start_ts, end_ts, start, end)`:

    sbounds = np.maximum(start_ts, start)
    ebounds = np.minimum(end_ts,   end)
    ws = (ebounds - sbounds) / (end_ts - start_ts)
    ws[np.where(np.isnan(ws))] = 0.0

`start_ts`/`end_ts` are arrays (modelled as lists, traversed in parallel as
numpy broadcasts them), `start`/`end` are scalars.  The final line replaces
`nan` entries by `0.0`; other entries (including infinities) pass through. -/
def weights (start_ts end_ts : List ℚ) (start : ℚ) (end' : ℚ) : List NpVal :=
  let raw := List.zipWith
    (fun s e => npdiv (min e end' - max s start) (e - s)) start_ts end_ts
  raw.map (fun w => if w = .nan then .fin 0 else w)

/-- Embedding of `_plat_idx_to_val(idx, edge)` (defaults
`FIO_IO_U_PLAT_BITS = 6`, `FIO_IO_U_PLAT_VAL = 64`):

    if idx < (FIO_IO_U_PLAT_VAL << 1): return idx
    error_bits = (idx >> FIO_IO_U_PLAT_BITS) - 1
    base = 1 << (error_bits + FIO_IO_U_PLAT_BITS)
    k = idx % FIO_IO_U_PLAT_VAL
    return base + ((k + edge) * (1 << error_bits))
-/
def _plat_idx_to_val (idx : ℕ) (edge : ℚ) : ℚ :=
  if idx < 64 <<< 1 then (idx : ℚ)
  else
    let error_bits : ℕ := idx >>> 6 - 1
    let base : ℚ := (2 : ℚ) ^ (error_bits + 6)
    let k : ℕ := idx % 64
    base + ((k : ℚ) + edge) * (2 : ℚ) ^ error_bits

/-- Embedding of `plat_idx_to_val_coarse(idx, coarseness, edge)`:

    stride = 1 << coarseness
    idx = idx * stride
    lower = _plat_idx_to_val(idx, edge=0.0)
    upper = _plat_idx_to_val(idx + stride, edge=1.0)
    return lower + (upper - lower) * edge
-/
def plat_idx_to_val_coarse (idx coarseness : ℕ) (edge : ℚ) : ℚ :=
  let stride : ℕ := 1 <<< coarseness
  let idx' := idx * stride
  let lower := _plat_idx_to_val idx' 0
  let upper := _plat_idx_to_val (idx' + stride) 1
  lower + (upper - lower) * edge

/-- Running (inclusive) prefix sums with accumulator, modelling `np.cumsum`. -/
def cumsumFrom (acc : ℚ) : List ℚ → List ℚ
  | [] => []
  | x :: xs => (acc + x) :: cumsumFrom (acc + x) xs

/-- `np.cumsum`: inclusive prefix sums. -/
def cumsum (l : List ℚ) : List ℚ := cumsumFrom 0 l

/-- Embedding of `np.interp(x, xp, fp)` for increasing `xp`: clamp to `fp`'s
first/last value outside `[xp.head, xp.last]`, linear interpolation between
the two bracketing points inside. -/
def interp (x : ℚ) : List ℚ → List ℚ → ℚ
  | x0 :: x1 :: xp, f0 :: f1 :: fp =>
    if x ≤ x0 then f0
    else if x ≤ x1 then f0 + (f1 - f0) * (x - x0) / (x1 - x0)
    else interp x (x1 :: xp) (f1 :: fp)
  | _ :: _, f0 :: _ => f0
  | _, _ => 0

/-- Ordering of `(value, weight)` pairs by value, as used by the
`np.argsort(vs)` reordering. -/
def pairLe (a b : ℚ × ℚ) : Prop := a.1 ≤ b.1

instance : DecidableRel pairLe := fun a b => inferInstanceAs (Decidable (a.1 ≤ b.1))

instance : IsTotal (ℚ × ℚ) pairLe := ⟨fun a b => le_total a.1 b.1⟩

instance : IsTrans (ℚ × ℚ) pairLe := ⟨fun _ _ _ h1 h2 => le_trans h1 h2⟩

/-- Embedding of `weighted_percentile(percs, vs, ws)`:

    idx = np.argsort(vs)
    vs, ws = vs[idx], ws[idx]
    cdf = 100 * (ws.cumsum() - ws / 2.0) / ws.sum()
    return np.interp(percs, cdf, vs)

`np.argsort` reorders the pairs `(value, weight)` by ascending value; we model
the reordering with an insertion sort on the value component (any sort by
value produces the same pair list whenever equal values carry equal weights,
as in the uniform-weight claim considered here). -/
def weighted_percentile (percs vs ws : List ℚ) : List ℚ :=
  let pairs := List.insertionSort pairLe (vs.zip ws)
  let vs' := pairs.map Prod.fst
  let ws' := pairs.map Prod.snd
  let cdf := List.zipWith (fun c w => 100 * (c - w / 2) / ws'.sum) (cumsum ws') ws'
  percs.map (fun p => interp p cdf vs')

/-- Reference unweighted percentile, following the spec's words: sort the
values ascending; give the `k`-th point the percentile position
`100 * (k + 1/2) / n` (midpoint-of-step empirical CDF); for each target,
linearly interpolate between the two bracketing points, clamped at the
sequence ends.  This is the comparison definition for the refinement claim
about uniform weights; it is written from the spec, not from the code. -/
def spec_unweighted_percentile (percs vs : List ℚ) : List ℚ :=
  let svs := List.insertionSort (· ≤ ·) vs
  let n := vs.length
  let pos := (List.range n).map (fun k : ℕ => 100 * ((k : ℚ) + 1/2) / n)
  percs.map (fun p => interp p pos svs)

/-- A raw input row: `endTime, rws, szs, count_0, ..., count_{H-1}`
(all non-negative integers; `pandas.read_csv(..., dtype=int)`). -/
structure Row where
  time : ℕ
  rws : ℕ
  szs : ℕ
  hist : List ℕ
deriving DecidableEq, Repr

/-- A record of the merged stream after `read_chunk`'s column selection:
`np.append(times, hists, axis=1)` keeps the time column and the histogram
columns, dropping columns 1 and 2. -/
structure MRec where
  time : ℕ
  hist : List ℕ
deriving DecidableEq, Repr

/-- A record yielded by `histogram_generator`:
`np.insert(arr[0], 1, fps.index(fp))` tags the record with its source file
index at position 1. -/
structure TRec where
  time : ℕ
  src : ℕ
  hist : List ℕ
deriving DecidableEq, Repr

/-- Column selection of `read_chunk` applied to one row. -/
def rowToRec (r : Row) : MRec := ⟨r.time, r.hist⟩

/-- Embedding of `read_chunk(rdr, sz)`: pull the next chunk of at most `sz`
rows from the reader (`none` when the reader is exhausted, or was `None`
because the file was empty) and keep the time and histogram columns. -/
def read_chunk (sz : ℕ) (rest : List Row) : Option (List MRec) × List Row :=
  if rest.isEmpty then (none, rest)
  else (some ((rest.take sz).map rowToRec), rest.drop sz)

/-- Per-file merge state: the current in-memory chunk (`arrs[fp]`, `none`
once exhausted) and the rows the chunked reader has not yet delivered. -/
structure FS where
  buf : Option (List MRec)
  rest : List Row
deriving DecidableEq, Repr

/-- Initial state of one file: its first chunk, as read by
`arrs = {fp: read_chunk(rdr, sz) for fp, rdr in rdrs.items()}`. -/
def initFS (sz : ℕ) (rows : List Row) : FS :=
  ⟨(read_chunk sz rows).1, (read_chunk sz rows).2⟩

/-- The `(file index, first buffered time)` pairs of the files from index `n`
on whose buffer is not `None`, in file order. -/
def headsFrom (n : ℕ) : List FS → List (ℕ × ℕ)
  | [] => []
  | fs :: rest =>
    match fs.buf with
    | none => headsFrom (n + 1) rest
    | some b => (n, (b.headD ⟨0, []⟩).time) :: headsFrom (n + 1) rest

/-- The `(file index, first buffered time)` pairs of the non-exhausted files,
in file order: the candidate list `[fp for fp in fps if not arrs[fp] is None]`
of `get_min` together with its key `arrs.get(fp)[0][0]`. -/
def headsOf (files : List FS) : List (ℕ × ℕ) := headsFrom 0 files

/-- Python's `min(..., key=...)`: scan keeping the current best, replacing it
only on a strictly smaller key, so the first minimum wins ties. -/
def selectMin (best : ℕ × ℕ) : List (ℕ × ℕ) → ℕ × ℕ
  | [] => best
  | x :: xs => selectMin (if x.2 < best.2 then x else best) xs

/-- Embedding of `get_min(fps, arrs)`: the index of the non-exhausted file
whose buffered first record has the smallest time (ties: lowest file index);
`none` when every file is exhausted (Python raises `ValueError`). -/
def get_min (files : List FS) : Option ℕ :=
  match headsOf files with
  | [] => none
  | x :: xs => some (selectMin x xs).1

/-- Advance a file past its consumed first record (`arrs[fp] = arr[1:]`),
refilling from the chunked reader when the buffer empties. -/
def advance (sz : ℕ) (fs : FS) : FS :=
  match fs.buf with
  | none => fs
  | some b => if b.tail.isEmpty then initFS sz fs.rest else ⟨some b.tail, fs.rest⟩

/-- One iteration of the `histogram_generator` loop: select the minimum file,
yield its tagged first record, advance that file; `none` when `get_min`
raises `ValueError` (all files exhausted) and the generator returns. -/
def step (sz : ℕ) (files : List FS) : Option (TRec × List FS) :=
  match get_min files with
  | none => none
  | some i =>
    match (files.getD i ⟨none, []⟩).buf with
    | none => none
    | some b =>
      let r := b.headD ⟨0, []⟩
      some (⟨r.time, i, r.hist⟩, files.set i (advance sz (files.getD i ⟨none, []⟩)))

/-- Total number of records still held by the merge state. -/
def totalRecs (files : List FS) : ℕ :=
  (files.map (fun fs => (fs.buf.getD []).length + fs.rest.length)).sum

/-- The full output sequence of the merge loop, with fuel (each step consumes
exactly one record, so `totalRecs` fuel runs the loop to completion). -/
def mergeRun (sz : ℕ) : ℕ → List FS → List TRec
  | 0, _ => []
  | fuel + 1, files =>
    match step sz files with
    | none => []
    | some (r, files') => r :: mergeRun sz fuel files'

/-- Embedding of `histogram_generator(ctx, fps, sz)`: the list of all yielded
records. -/
def histogram_generator (sz : ℕ) (inputs : List (List Row)) : List TRec :=
  mergeRun sz (totalRecs (inputs.map (initFS sz))) (inputs.map (initFS sz))

/-- One step of the merge, staying put on termination (used to index the
states the generator passes through). -/
def stepOrStay (sz : ℕ) (files : List FS) : List FS :=
  match step sz files with
  | none => files
  | some (_, files') => files'

/-- The merge state after `n` steps of `histogram_generator`'s loop. -/
def stepN (sz n : ℕ) (files : List FS) : List FS := (stepOrStay sz)^[n] files

/-- Number of records currently buffered in memory (the chunk buffers;
`rest` is still on disk). -/
def buffered (files : List FS) : ℕ :=
  (files.map (fun fs => (fs.buf.getD []).length)).sum

/-- The records of one file's state that are still to be emitted. -/
def flattenFS (fs : FS) : List MRec := fs.buf.getD [] ++ fs.rest.map rowToRec

/-- All records still to be emitted by the files from index `n` on, tagged
with their file indices. -/
def taggedFrom (n : ℕ) : List FS → List TRec
  | [] => []
  | fs :: rest =>
    (flattenFS fs).map (fun r => ⟨r.time, n, r.hist⟩) ++ taggedFrom (n + 1) rest

/-- All records still to be emitted, tagged with their file indices. -/
def taggedRecs (files : List FS) : List TRec := taggedFrom 0 files

/-- The records of the input files from index `n` on, tagged with their file
indices: the multiset the merged stream must be a permutation of. -/
def taggedInputsFrom (n : ℕ) : List (List Row) → List TRec
  | [] => []
  | rows :: rest =>
    rows.map (fun r => ⟨r.time, n, r.hist⟩) ++ taggedInputsFrom (n + 1) rest

/-- The union of all input records, each tagged with its source file index. -/
def taggedInputs (inputs : List (List Row)) : List TRec := taggedInputsFrom 0 inputs

/-- The merge output order: strictly earlier time, or equal time and
non-decreasing source file index (sortedness plus tie stability). -/
def mergeOrder (a b : TRec) : Prop :=
  a.time < b.time ∨ (a.time = b.time ∧ a.src ≤ b.src)

/-- Invariant of one file's merge state: an exhausted file has no pending
rows, a live chunk buffer is non-empty, and the pending records are in
non-decreasing time order. -/
def FSInv (fs : FS) : Prop :=
  (fs.buf = none → fs.rest = []) ∧ (∀ b, fs.buf = some b → b ≠ []) ∧
    (flattenFS fs).Pairwise (fun a b => a.time ≤ b.time)

/-- Invariant of the merge state, for every file. -/
def MergeInv (files : List FS) : Prop := ∀ fs ∈ files, FSInv fs

/-- Finite part of a numpy division result.  In `process_interval` the sample
spans handed to `weights` have length `interval/2 + bin_val/1000`, which is
positive whenever `0 < interval` and the bin values are non-negative, so for
the program's reachable inputs every weight is finite and this conversion is
exact. -/
def npvalToQ : NpVal → ℚ
  | .fin q => q
  | _ => 0

/-- `start_times = (end_time - 0.5 * ctx.interval) - bin_vals / 1000.0`:
derived start time of the wall-clock span of bin `i` of a sample ending at
`endTime`. -/
def start_times (binVals : List ℚ) (interval : ℚ) (endTime : ℚ) (i : ℕ) : ℚ :=
  (endTime - 1/2 * interval) - binVals.getD i 0 / 1000

/-- `idx = np.where(start_times < iEnd)`: the bin indices of a sample whose
derived spans start before the end of the queried interval, in ascending
order. -/
def qualIdx (binVals : List ℚ) (interval : ℚ) (endTime : ℚ) (iEnd : ℚ) : List ℕ :=
  (List.range binVals.length).filter
    (fun i => start_times binVals interval endTime i < iEnd)

/-- Result of `process_interval`: the sample count, the extreme bin values
(`None` = unset), and the weighted interval histogram. -/
structure IRes where
  ssCnt : ℕ
  mn : Option ℚ
  mx : Option ℚ
  iHist : List ℚ
deriving DecidableEq, Repr

/-- Embedding of `update_extreme(val, fncn, new_val)`. -/
def update_extreme (val : Option ℚ) (fncn : ℚ → ℚ → ℚ) (new_val : ℚ) : ℚ :=
  match val with
  | none => new_val
  | some v => fncn v new_val

/-- `iHist[idx] += ws`: scatter-add the weighted values at the qualifying
indices. -/
def scatterAdd (acc : List ℚ) (ps : List ℕ) (vs : List ℚ) : List ℚ :=
  (ps.zip vs).foldl (fun a pv => a.set pv.1 (a.getD pv.1 0 + pv.2)) acc

/-- One iteration of `process_interval`'s loop over a single sample
`(end_time, file, hist)` (the `file` column is not used by the body):

    start_times = (end_time - 0.5 * ctx.interval) - bin_vals / 1000.0
    idx = np.where(start_times < iEnd)
    s_ts, l_bvs, u_bvs, hs = start_times[idx], lower_bin_vals[idx], upper_bin_vals[idx], hist[idx]
    ws = hs * weights(s_ts, end_time, iStart, iEnd)
    iHist[idx] += ws
    ss_cnt += np.sum(hs)
    idx = np.where(hs != 0)[0]
    if idx.size > 0:
        mn_bin_val = update_extreme(mn_bin_val, min, l_bvs[max(0,           idx[0]  - 1)])
        mx_bin_val = update_extreme(mx_bin_val, max, u_bvs[min(len(hs) - 1, idx[-1] + 1)])
-/
def processSample (binVals lowerVals upperVals : List ℚ) (interval iStart iEnd : ℚ)
    (acc : IRes) (s : TRec) : IRes :=
  let idx := qualIdx binVals interval (s.time : ℚ) iEnd
  let s_ts := idx.map (start_times binVals interval (s.time : ℚ))
  let l_bvs := idx.map (fun i => lowerVals.getD i 0)
  let u_bvs := idx.map (fun i => upperVals.getD i 0)
  let hs := idx.map (fun i => s.hist.getD i 0)
  let ws := List.zipWith (fun (h : ℕ) (w : NpVal) => (h : ℚ) * npvalToQ w) hs
    (weights s_ts (List.replicate s_ts.length (s.time : ℚ)) iStart iEnd)
  let iHist' := scatterAdd acc.iHist idx ws
  let cnt := acc.ssCnt + hs.sum
  let nz := (List.range hs.length).filter (fun p => hs.getD p 0 ≠ 0)
  match nz with
  | [] => ⟨cnt, acc.mn, acc.mx, iHist'⟩
  | p :: ps =>
    ⟨cnt,
      some (update_extreme acc.mn min (l_bvs.getD (p - 1) 0)),
      some (update_extreme acc.mx max
        (u_bvs.getD (min (hs.length - 1) ((p :: ps).getLast (by simp) + 1)) 0)),
      iHist'⟩

/-- Embedding of `process_interval(ctx, samples, iStart, iEnd)`: fold the
per-sample update over the buffered samples, starting from zero counts,
unset extremes and a zero histogram of `H` columns.  The final printing
(`print_all_stats`, executed when `ss_cnt > 0`) is the driver's concern. -/
def process_interval (binVals lowerVals upperVals : List ℚ) (interval : ℚ)
    (samples : List TRec) (iStart iEnd : ℚ) : IRes :=
  samples.foldl (processSample binVals lowerVals upperVals interval iStart iEnd)
    ⟨0, none, none, List.replicate binVals.length 0⟩

/-- State of `main`'s interval loop: current interval `[start, stop)`, the
not-yet-pulled merged records, the in-memory sample buffer `arr`, the
`more_data` flag, and the emitted `(end-time, samples)` rows. -/
structure DState where
  start : ℚ
  stop : ℚ
  pending : List TRec
  arr : List TRec
  more : Bool
  out : List (ℚ × ℕ)
deriving Repr

/-- `arr[-1][0]`. -/
def lastTime (arr : List TRec) : ℕ := (arr.getLastD ⟨0, 0, []⟩).time

/-- The refill loop of `main`:

    while len(arr) == 0 or arr[-1][0] < ctx.max_latency * 1000 + end:
        try: new_arr = next(gen)
        except StopIteration: more_data = False; break
        arr = np.append(arr, ...)
-/
def refill (maxLat stop : ℚ) : List TRec → List TRec → Bool →
    List TRec × List TRec × Bool
  | [], arr, more =>
    if arr.isEmpty ∨ ((lastTime arr : ℚ) < maxLat * 1000 + stop) then (arr, [], false)
    else (arr, [], more)
  | r :: rest, arr, more =>
    if arr.isEmpty ∨ ((lastTime arr : ℚ) < maxLat * 1000 + stop) then
      refill maxLat stop rest (arr ++ [r]) more
    else (arr, r :: rest, more)

/-- Python's float `%` (for the positive integer divisor used here):
`a - b * floor(a / b)`. -/
def qmod (a b : ℚ) : ℚ := a - b * (⌊a / b⌋ : ℤ)

/-- One iteration of `main`'s `while more_data or len(arr) > 0` loop: refill
the buffer up to the lookahead horizon, optionally jump the first interval to
the input's start (`start == 0` heuristic for epoch timestamps), process the
interval, emit a row when `ss_cnt > 0`, evict samples with `time <= end`, and
advance to the next interval. -/
def driverStep (binVals lowerVals upperVals : List ℚ) (interval maxLat : ℚ)
    (st : DState) : DState :=
  let rf := refill maxLat st.stop st.pending st.arr st.more
  let arr1 := rf.1
  let pend1 := rf.2.1
  let more1 := rf.2.2
  if arr1.isEmpty then
    ⟨st.start + interval, st.start + interval + interval, pend1, arr1, more1, st.out⟩
  else
    let jump := st.start = 0 ∧ ((arr1.headD ⟨0, 0, []⟩).time : ℚ) - maxLat > st.stop
    let s0 := ((arr1.headD ⟨0, 0, []⟩).time : ℚ) - maxLat
    let start1 := if jump then s0 - qmod s0 interval else st.start
    let stop1 := if jump then start1 + interval else st.stop
    let res := process_interval binVals lowerVals upperVals interval arr1 start1 stop1
    let out1 := if 0 < res.ssCnt then st.out ++ [(stop1, res.ssCnt)] else st.out
    let arr2 := arr1.filter (fun r => (r.time : ℚ) > stop1)
    ⟨start1 + interval, start1 + interval + interval, pend1, arr2, more1, out1⟩

/-- The interval loop of `main`, with fuel. -/
def driverLoop (binVals lowerVals upperVals : List ℚ) (interval maxLat : ℚ) :
    ℕ → DState → DState
  | 0, st => st
  | fuel + 1, st =>
    if st.more ∨ ¬st.arr.isEmpty then
      driverLoop binVals lowerVals upperVals interval maxLat fuel
        (driverStep binVals lowerVals upperVals interval maxLat st)
    else st

/-- `main`'s initial loop state: `start, end = 0, ctx.interval`, empty
buffer, all merged records pending. -/
def initDState (interval : ℚ) (rows : List TRec) : DState :=
  ⟨0, interval, rows, [], true, []⟩

/-- Total histogram mass (sum of all counts) of a list of records. -/
def totalMass (rows : List TRec) : ℕ := (rows.map (fun r => r.hist.sum)).sum

/-- On samples of positive time length, `weights` computes the unclamped
overlap ratio `(min(e, end) - max(s, start)) / (e - s)`: the denominator is
nonzero, so the division is finite and the `nan` replacement does nothing. -/
theorem weights_pos_spec (start_ts end_ts : List ℚ) (start : ℚ) (end' : ℚ)
    (h : ∀ p ∈ start_ts.zip end_ts, p.1 < p.2) :
    weights start_ts end_ts start end' =
      (start_ts.zip end_ts).map
        (fun p => NpVal.fin ((min p.2 end' - max p.1 start) / (p.2 - p.1))) := by
  induction start_ts generalizing end_ts with
  | nil => simp [weights]
  | cons s sts ih =>
    cases end_ts with
    | nil => simp [weights]
    | cons e ets =>
      have hse : s < e := h (s, e) (by simp)
      have hne : e - s ≠ 0 := by intro hc; nlinarith
      have htail := ih ets (fun p hp => h p (by simp [hp]))
      simp only [weights, List.zipWith_cons_cons, List.map_cons, List.zip_cons_cons,
        List.cons.injEq]
      refine ⟨?_, ?_⟩
      · simp [npdiv, hne]
      · simpa [weights] using htail

/-- Arithmetic form of `_plat_idx_to_val`: the shifts spelled out as
division/`mod`/powers. -/
theorem _plat_idx_to_val_eq (idx : ℕ) (edge : ℚ) :
    _plat_idx_to_val idx edge =
      if idx < 128 then (idx : ℚ)
      else (2 : ℚ) ^ (idx / 64 - 1 + 6) + ((idx % 64 : ℕ) + edge) * (2 : ℚ) ^ (idx / 64 - 1) := by
  have h1 : (64 <<< 1 : ℕ) = 128 := rfl
  have h2 : ∀ n : ℕ, n >>> 6 = n / 64 := fun n => by
    rw [Nat.shiftRight_eq_div_pow]
  rw [_plat_idx_to_val, h1, h2]

/-- `_plat_idx_to_val` is monotone in the edge parameter. -/
theorem _plat_mono_edge (idx : ℕ) {e e' : ℚ} (h : e ≤ e') :
    _plat_idx_to_val idx e ≤ _plat_idx_to_val idx e' := by
  rw [_plat_idx_to_val_eq, _plat_idx_to_val_eq]
  split
  · exact le_refl _
  · have hp : (0:ℚ) ≤ (2 : ℚ) ^ (idx / 64 - 1) := by positivity
    have : ((idx % 64 : ℕ) + e) * (2:ℚ) ^ (idx / 64 - 1) ≤
        ((idx % 64 : ℕ) + e') * (2:ℚ) ^ (idx / 64 - 1) := by
      apply mul_le_mul_of_nonneg_right _ hp
      linarith
    linarith

/-- The upper edge of fine bin `j` does not exceed the lower edge of fine bin
`j + 1` (they are equal except at the linear-to-logarithmic boundary). -/
theorem _plat_step (j : ℕ) :
    _plat_idx_to_val j 1 ≤ _plat_idx_to_val (j + 1) 0 := by
  rw [_plat_idx_to_val_eq, _plat_idx_to_val_eq]
  rcases lt_trichotomy j 127 with hj | hj | hj
  · rw [if_pos (by omega), if_pos (by omega)]
    exact_mod_cast Nat.le_succ j
  · subst hj
    rw [if_pos (by omega), if_neg (by omega)]
    norm_num
  · rw [if_neg (by omega), if_neg (by omega)]
    rcases Nat.lt_or_ge (j % 64) 63 with hk | hk
    · have hd : (j + 1) / 64 = j / 64 := by omega
      have hm : (j + 1) % 64 = j % 64 + 1 := by omega
      rw [hd, hm]
      push_cast
      ring_nf
      exact le_refl _
    · have hk' : j % 64 = 63 := by omega
      have hg : j / 64 ≥ 2 := by omega
      obtain ⟨m, hm⟩ : ∃ m, j / 64 = m + 2 := ⟨j / 64 - 2, by omega⟩
      have hd : (j + 1) / 64 = m + 3 := by omega
      have hm' : (j + 1) % 64 = 0 := by omega
      rw [hd, hm', hk', hm]
      have e1 : m + 2 - 1 + 6 = m + 7 := by omega
      have e2 : m + 2 - 1 = m + 1 := by omega
      have e3 : m + 3 - 1 + 6 = m + 8 := by omega
      have e4 : m + 3 - 1 = m + 2 := by omega
      rw [e1, e2, e3, e4]
      push_cast
      rw [pow_succ ((2:ℚ)) (m + 7)]
      have : (63 + 1 : ℚ) * 2 ^ (m + 1) = 2 ^ (m + 7) := by
        have : (64 : ℚ) = 2 ^ 6 := by norm_num
        rw [show (63 + 1 : ℚ) = 64 by norm_num, this, ← pow_add]
        ring_nf
      rw [this]
      ring_nf
      nlinarith [pow_pos (show (0:ℚ) < 2 by norm_num) (m + 2), pow_pos (show (0:ℚ) < 2 by norm_num) (m + 8)]

/-- `_plat_idx_to_val` at edge `0` is monotone in the index. -/
theorem _plat_mono_idx_zero : ∀ d j : ℕ,
    _plat_idx_to_val j 0 ≤ _plat_idx_to_val (j + d) 0 := by
  intro d
  induction d with
  | zero => intro j; simp
  | succ d ih =>
    intro j
    calc _plat_idx_to_val j 0 ≤ _plat_idx_to_val (j + d) 0 := ih j
      _ ≤ _plat_idx_to_val (j + d) 1 := _plat_mono_edge _ (by norm_num)
      _ ≤ _plat_idx_to_val (j + d + 1) 0 := _plat_step _
      _ = _plat_idx_to_val (j + (d + 1)) 0 := by ring_nf

/-- Strict-index monotonicity of `_plat_idx_to_val` for edges in `[0, 1]`. -/
theorem _plat_mono (j j' : ℕ) (e e' : ℚ) (hjj : j < j') (he : e ≤ 1) (he' : 0 ≤ e') :
    _plat_idx_to_val j e ≤ _plat_idx_to_val j' e' := by
  obtain ⟨d, hd⟩ : ∃ d, j' = j + 1 + d := ⟨j' - (j + 1), by omega⟩
  subst hd
  calc _plat_idx_to_val j e ≤ _plat_idx_to_val j 1 := _plat_mono_edge _ he
    _ ≤ _plat_idx_to_val (j + 1) 0 := _plat_step _
    _ ≤ _plat_idx_to_val (j + 1 + d) 0 := _plat_mono_idx_zero d _
    _ ≤ _plat_idx_to_val (j + 1 + d) e' := _plat_mono_edge _ he'

/-- `plat_idx_to_val_coarse` as linear interpolation between the fine-bin
values at `idx * 2^c` (edge 0) and `idx * 2^c + 2^c` (edge 1). -/
theorem coarse_eq (idx c : ℕ) (e : ℚ) :
    plat_idx_to_val_coarse idx c e =
      _plat_idx_to_val (idx * 2 ^ c) 0 +
        (_plat_idx_to_val (idx * 2 ^ c + 2 ^ c) 1 - _plat_idx_to_val (idx * 2 ^ c) 0) * e := by
  simp [plat_idx_to_val_coarse, Nat.shiftLeft_eq]

/-- C2 (counterexample). The claim predicts weight
`max(0, min(binEnd, intervalEnd) − max(binStart, intervalStart)) / (binEnd − binStart)`;
for the span `[10, 20]` and the disjoint interval `[0, 5]` that is `0`, but the
code computes `(5 − 10)/10 = −1/2`: there is no `max(0, ·)` clamp. -/
theorem c2_counterexample :
    weights [10] [20] 0 5 ≠
      [NpVal.fin (max 0 (min (20 : ℚ) 5 - max 10 0) / (20 - 10))] := by
  with_unfolding_all decide

/-- C2 (amended). For spans of positive length the weight equals
`(min(binEnd, intervalEnd) − max(binStart, intervalStart)) / (binEnd − binStart)`,
with no clamping at `0`: the weight can be negative when the span is disjoint
from the interval. -/
theorem c2_amended (start_ts end_ts : List ℚ) (start : ℚ) (end' : ℚ)
    (h : ∀ p ∈ start_ts.zip end_ts, p.1 < p.2) :
    weights start_ts end_ts start end' =
      (start_ts.zip end_ts).map
        (fun p => NpVal.fin ((min p.2 end' - max p.1 start) / (p.2 - p.1))) :=
  weights_pos_spec start_ts end_ts start end' h

/-- Witness for `c2_amended` at the span `[10, 20]`, interval `[0, 5]`. -/
theorem c2_amended_witness :
    weights [10] [20] 0 5 =
      [NpVal.fin ((min (20 : ℚ) 5 - max (10 : ℚ) 0) / (20 - 10))] := by
  have := c2_amended [10] [20] 0 5 (by norm_num)
  simpa using this

/-- C4 (code bug, evaluation at the failing input). For the zero-length span
`start_ts = end_ts = 10` and the interval `[0, 5]`, numpy computes
`(min(10,5) − max(10,0)) / 0.0 = (−5)/0.0 = −inf`, which is not `nan` and so
is NOT replaced by `0`: the returned weight is `−inf`, not `0` as the claim
(and the function's own docstring) state. -/
theorem c4_eval : weights [10] [10] 0 5 = [NpVal.ninf] := by
  with_unfolding_all decide

/-- C10. When every sample span has positive length, every weight returned by
`weights` is a finite rational that is at most `1`. -/
theorem c10_weight_le_one (start_ts end_ts : List ℚ) (start : ℚ) (end' : ℚ)
    (h : ∀ p ∈ start_ts.zip end_ts, p.1 < p.2) :
    ∀ w ∈ weights start_ts end_ts start end', ∃ q, w = NpVal.fin q ∧ q ≤ 1 := by
  rw [weights_pos_spec start_ts end_ts start end' h]
  intro w hw
  rw [List.mem_map] at hw
  obtain ⟨p, hp, rfl⟩ := hw
  refine ⟨_, rfl, ?_⟩
  have hlt := h p hp
  rw [div_le_one (by linarith)]
  have h1 : min p.2 end' ≤ p.2 := min_le_left _ _
  have h2 : p.1 ≤ max p.1 start := le_max_left _ _
  linarith

/-- Witness for `c10_weight_le_one`: the span `[0, 2]` against interval
`[0, 1]`. -/
theorem c10_witness :
    ∃ q, (weights [0] [2] 0 1).headD NpVal.nan = NpVal.fin q ∧ q ≤ 1 :=
  c10_weight_le_one [0] [2] 0 1 (by norm_num) _ (by with_unfolding_all decide)

/-- C3 (counterexample). Bins 128 and 129 (coarseness 0) lie in the same
64-bucket group, yet the upper bound of bin 128 is `132` while the lower bound
of bin 129 is `130`: the coarse upper bound `_plat_idx_to_val(idx + stride, edge=1.0)`
overshoots the next coarse bin's lower bound by one fine-bin width in the
logarithmic region. -/
theorem c3_counterexample :
    plat_idx_to_val_coarse 128 0 1 ≠ plat_idx_to_val_coarse 129 0 0 := by
  with_unfolding_all decide

/-- C3 (amended). Contiguity `upper(i) = lower(i+1)` does hold for all bins in
the linear region, i.e. whenever `(i + 1) * 2^coarseness < 128`. -/
theorem c3_amended (idx c : ℕ) (h : (idx + 1) * 2 ^ c < 128) :
    plat_idx_to_val_coarse idx c 1 = plat_idx_to_val_coarse (idx + 1) c 0 := by
  have harg : idx * 2 ^ c + 2 ^ c = (idx + 1) * 2 ^ c := by ring
  have hU : _plat_idx_to_val ((idx + 1) * 2 ^ c) 1 = (((idx + 1) * 2 ^ c : ℕ) : ℚ) := by
    rw [_plat_idx_to_val_eq, if_pos h]
  have hL : _plat_idx_to_val ((idx + 1) * 2 ^ c) 0 = (((idx + 1) * 2 ^ c : ℕ) : ℚ) := by
    rw [_plat_idx_to_val_eq, if_pos h]
  rw [coarse_eq, coarse_eq, harg, hU, hL]
  ring

/-- Witness for `c3_amended`: bins 5 and 6 at coarseness 0. -/
theorem c3_amended_witness :
    plat_idx_to_val_coarse 5 0 1 = plat_idx_to_val_coarse 6 0 0 :=
  c3_amended 5 0 (by norm_num)

/-- C9. For every coarseness and bin index: `lower ≤ mid ≤ upper` (edges
`0`, `0.5`, `1`), and each of the three precomputed tables is non-decreasing
in the bin index. -/
theorem c9_bin_tables (c i : ℕ) :
    (plat_idx_to_val_coarse i c 0 ≤ plat_idx_to_val_coarse i c (1/2) ∧
     plat_idx_to_val_coarse i c (1/2) ≤ plat_idx_to_val_coarse i c 1) ∧
    (plat_idx_to_val_coarse i c 0 ≤ plat_idx_to_val_coarse (i+1) c 0 ∧
     plat_idx_to_val_coarse i c (1/2) ≤ plat_idx_to_val_coarse (i+1) c (1/2) ∧
     plat_idx_to_val_coarse i c 1 ≤ plat_idx_to_val_coarse (i+1) c 1) := by
  have hs1 : 1 ≤ 2 ^ c := Nat.one_le_two_pow
  have hLU : _plat_idx_to_val (i * 2 ^ c) 0 ≤ _plat_idx_to_val (i * 2 ^ c + 2 ^ c) 1 :=
    _plat_mono _ _ 0 1 (by omega) (by norm_num) (by norm_num)
  have hLU' : _plat_idx_to_val ((i+1) * 2 ^ c) 0 ≤
      _plat_idx_to_val ((i+1) * 2 ^ c + 2 ^ c) 1 :=
    _plat_mono _ _ 0 1 (by omega) (by norm_num) (by norm_num)
  have hLL : _plat_idx_to_val (i * 2 ^ c) 0 ≤ _plat_idx_to_val ((i+1) * 2 ^ c) 0 :=
    _plat_mono _ _ 0 0 (by nlinarith) (by norm_num) (by norm_num)
  have hUU : _plat_idx_to_val (i * 2 ^ c + 2 ^ c) 1 ≤
      _plat_idx_to_val ((i+1) * 2 ^ c + 2 ^ c) 1 :=
    _plat_mono _ _ 1 1 (by nlinarith) (by norm_num) (by norm_num)
  rw [coarse_eq, coarse_eq, coarse_eq, coarse_eq, coarse_eq, coarse_eq]
  refine ⟨⟨by linarith, by linarith⟩, by linarith, by linarith, by linarith⟩

/-- `zipWith` of a list with itself is a `map`. -/
theorem zipWith_self_eq_map {α β : Type} (f : α → α → β) :
    ∀ l : List α, List.zipWith f l l = l.map (fun a => f a a)
  | [] => rfl
  | a :: l => by
    simp only [List.zipWith_cons_cons, List.map_cons, zipWith_self_eq_map f l]

/-- Prefix sums of a constant list. -/
theorem cumsumFrom_replicate (w : ℚ) : ∀ (n : ℕ) (a : ℚ),
    cumsumFrom a (List.replicate n w) =
      (List.range n).map (fun k : ℕ => a + ((k : ℚ) + 1) * w) := by
  intro n
  induction n with
  | zero => intro a; simp [cumsumFrom]
  | succ n ih =>
    intro a
    rw [List.replicate_succ, cumsumFrom, ih, List.range_succ_eq_map, List.map_cons,
      List.map_map]
    refine congrArg₂ List.cons (by norm_num) ?_
    apply List.map_congr_left
    intro k _
    simp only [Function.comp]
    push_cast
    ring

/-- C6. With uniform positive weights, `weighted_percentile` agrees with the
reference unweighted percentile (midpoint-of-step empirical CDF with linear
interpolation, clamped at the ends) on the same values. -/
theorem c6_uniform_weights (percs vs : List ℚ) (w : ℚ) (hv : vs ≠ []) (hw : 0 < w)
    (hp : ∀ p ∈ percs, 0 ≤ p ∧ p ≤ 100) :
    weighted_percentile percs vs (List.replicate vs.length w) =
      spec_unweighted_percentile percs vs := by
  have hn0 : 0 < vs.length := List.length_pos.mpr hv
  have hzlen : (vs.zip (List.replicate vs.length w)).length = vs.length := by simp
  have hperm : List.Perm (List.insertionSort pairLe (vs.zip (List.replicate vs.length w)))
      (vs.zip (List.replicate vs.length w)) := List.perm_insertionSort _ _
  have hlenp : (List.insertionSort pairLe (vs.zip (List.replicate vs.length w))).length
      = vs.length := by rw [hperm.length_eq, hzlen]
  have hsnd : ∀ p ∈ List.insertionSort pairLe (vs.zip (List.replicate vs.length w)),
      p.2 = w := by
    intro p hp'
    obtain ⟨p1, p2⟩ := p
    have hmem : (p1, p2) ∈ vs.zip (List.replicate vs.length w) := hperm.subset hp'
    exact List.eq_of_mem_replicate (List.of_mem_zip hmem).2
  have hws' : (List.insertionSort pairLe (vs.zip (List.replicate vs.length w))).map
      Prod.snd = List.replicate vs.length w := by
    rw [List.eq_replicate_iff]
    refine ⟨by simp [hlenp], ?_⟩
    intro b hb
    rw [List.mem_map] at hb
    obtain ⟨p, hpmem, rfl⟩ := hb
    exact hsnd p hpmem
  have hvs' : (List.insertionSort pairLe (vs.zip (List.replicate vs.length w))).map
      Prod.fst = List.insertionSort (· ≤ ·) vs := by
    apply List.eq_of_perm_of_sorted (r := (· ≤ · : ℚ → ℚ → Prop))
    · have h1 := hperm.map Prod.fst
      rw [List.map_fst_zip _ _ (by simp)] at h1
      exact h1.trans (List.perm_insertionSort _ _).symm
    · exact List.Pairwise.map _ (fun a b hab => hab) (List.sorted_insertionSort pairLe _)
    · exact List.sorted_insertionSort _ _
  have hsum : (List.replicate vs.length w).sum = (vs.length : ℚ) * w := by
    simp [List.sum_replicate, nsmul_eq_mul]
  have hcum : cumsum (List.replicate vs.length w) =
      (List.range vs.length).map (fun k : ℕ => ((k : ℚ) + 1) * w) := by
    rw [cumsum, cumsumFrom_replicate]
    apply List.map_congr_left
    intro k _
    ring
  have hrepmap : List.replicate vs.length w = (List.range vs.length).map (fun _ => w) := by
    simp [List.eq_replicate_iff]
  simp only [weighted_percentile, spec_unweighted_percentile]
  rw [hws', hvs', hsum, hcum]
  refine congrArg₂ List.map (funext fun p => ?_) rfl
  refine congrArg₂ (interp p) ?_ rfl
  rw [hrepmap, List.zipWith_map, zipWith_self_eq_map]
  apply List.map_congr_left
  intro k _
  have hwne : w ≠ 0 := ne_of_gt hw
  have hnne : (vs.length : ℚ) ≠ 0 := Nat.cast_ne_zero.mpr (by omega)
  field_simp
  ring

/-- Witness for `c6_uniform_weights`: values `[3, 1]`, uniform weight `1`,
target percentile `50`. -/
theorem c6_uniform_weights_witness :
    weighted_percentile [50] [3, 1] (List.replicate ([3, 1] : List ℚ).length 1) =
      spec_unweighted_percentile [50] [3, 1] :=
  c6_uniform_weights [50] [3, 1] 1 (by simp) (by norm_num) (by norm_num)

/-- The initial chunk buffer holds at most `sz` records. -/
theorem bufLen_initFS (sz : ℕ) (rows : List Row) :
    ((initFS sz rows).buf.getD []).length ≤ sz := by
  unfold initFS read_chunk
  by_cases h : rows.isEmpty <;> simp [h, List.length_take]

/-- Advancing a file preserves the chunk-size bound on its buffer. -/
theorem bufLen_advance (sz : ℕ) (fs : FS) (h : (fs.buf.getD []).length ≤ sz) :
    ((advance sz fs).buf.getD []).length ≤ sz := by
  unfold advance
  cases hb : fs.buf with
  | none => simpa [hb] using h
  | some b =>
    by_cases ht : b.tail.isEmpty
    · simp [ht, bufLen_initFS]
    · have h2 : b.length ≤ sz := by simpa [hb] using h
      simp only [ht, Bool.false_eq_true, if_false, Option.getD_some, List.length_tail]
      omega

/-- One merge step preserves the per-file buffer bound and the file count. -/
theorem bufBound_step (sz : ℕ) (files files' : List FS) (r : TRec)
    (hstep : step sz files = some (r, files'))
    (h : ∀ fs ∈ files, (fs.buf.getD []).length ≤ sz) :
    (∀ fs ∈ files', (fs.buf.getD []).length ≤ sz) ∧ files'.length = files.length := by
  cases hmin : get_min files with
  | none => simp [step, hmin] at hstep
  | some i =>
    cases hbuf : (files[i]?.getD ⟨none, []⟩).buf with
    | none => simp [step, hmin, hbuf] at hstep
    | some b =>
      simp only [step, hmin, List.getD_eq_getElem?_getD, hbuf, Option.some.injEq,
        Prod.mk.injEq] at hstep
      obtain ⟨-, rfl⟩ := hstep
      refine ⟨?_, List.length_set _ _ _⟩
      intro fs hfs
      rcases List.mem_or_eq_of_mem_set hfs with hmem | rfl
      · exact h fs hmem
      · apply bufLen_advance
        by_cases hi : i < files.length
        · have hg : files[i]?.getD (⟨none, []⟩ : FS) = files[i] := by
            rw [List.getElem?_eq_getElem hi]
            rfl
          rw [hg]
          exact h _ (List.getElem_mem hi)
        · have hg : files[i]? = none := List.getElem?_eq_none (by omega)
          rw [hg]
          simp

/-- C8. Every state the `histogram_generator` merge loop passes through
buffers at most `sz` records per file, hence at most `N * sz` records in
total (`N` = number of input files), independent of the total input size. -/
theorem c8_memory_bound (sz n : ℕ) (inputs : List (List Row)) :
    buffered (stepN sz n (inputs.map (initFS sz))) ≤ inputs.length * sz := by
  have key : ∀ (m : ℕ) (files : List FS),
      (∀ fs ∈ files, (fs.buf.getD []).length ≤ sz) →
      (∀ fs ∈ stepN sz m files, (fs.buf.getD []).length ≤ sz) ∧
        (stepN sz m files).length = files.length := by
    intro m
    induction m with
    | zero => intro files h; exact ⟨by simpa [stepN] using h, by simp [stepN]⟩
    | succ m ih =>
      intro files h
      have hstep : stepN sz (m + 1) files = stepN sz m (stepOrStay sz files) := by
        simp [stepN, Function.iterate_succ_apply]
      rw [hstep]
      unfold stepOrStay
      cases hs : step sz files with
      | none => exact ih files h
      | some p =>
        obtain ⟨hb, hl⟩ := bufBound_step sz files p.2 p.1 (by rw [hs]) h
        have := ih p.2 hb
        exact ⟨this.1, this.2.trans hl⟩
  have h0 : ∀ fs ∈ inputs.map (initFS sz), (fs.buf.getD []).length ≤ sz := by
    intro fs hfs
    rw [List.mem_map] at hfs
    obtain ⟨rows, -, rfl⟩ := hfs
    exact bufLen_initFS sz rows
  obtain ⟨hb, hl⟩ := key n (inputs.map (initFS sz)) h0
  have hsum := List.sum_le_card_nsmul
    ((stepN sz n (inputs.map (initFS sz))).map (fun fs => (fs.buf.getD []).length)) sz
    (by intro x hx
        rw [List.mem_map] at hx
        obtain ⟨fs, hfs, rfl⟩ := hx
        exact hb fs hfs)
  unfold buffered
  calc ((stepN sz n (inputs.map (initFS sz))).map (fun fs => (fs.buf.getD []).length)).sum
      ≤ ((stepN sz n (inputs.map (initFS sz))).map (fun fs => (fs.buf.getD []).length)).length • sz := hsum
    _ = inputs.length * sz := by
        rw [List.length_map, hl, List.length_map, smul_eq_mul]

/-- `selectMin` either keeps its first candidate or finds a strictly smaller
key in the rest of the list. -/
theorem selectMin_eq_or_lt (best : ℕ × ℕ) (l : List (ℕ × ℕ)) :
    selectMin best l = best ∨
      (selectMin best l ∈ l ∧ (selectMin best l).2 < best.2) := by
  induction l generalizing best with
  | nil => exact Or.inl rfl
  | cons x xs ih =>
    rw [selectMin]
    by_cases hx : x.2 < best.2
    · rw [if_pos hx]
      rcases ih x with heq | ⟨hmem, hlt⟩
      · exact Or.inr ⟨by rw [heq]; exact List.mem_cons_self _ _, by rw [heq]; exact hx⟩
      · exact Or.inr ⟨List.mem_cons_of_mem _ hmem, lt_trans hlt hx⟩
    · rw [if_neg hx]
      rcases ih best with heq | ⟨hmem, hlt⟩
      · exact Or.inl heq
      · exact Or.inr ⟨List.mem_cons_of_mem _ hmem, hlt⟩

/-- The key selected by `selectMin` is minimal among all candidates. -/
theorem selectMin_le (best : ℕ × ℕ) (l : List (ℕ × ℕ)) :
    ∀ y ∈ best :: l, (selectMin best l).2 ≤ y.2 := by
  induction l generalizing best with
  | nil =>
    intro y hy
    rw [List.mem_singleton] at hy
    subst hy
    exact le_refl _
  | cons x xs ih =>
    intro y hy
    rw [selectMin]
    by_cases hx : x.2 < best.2
    · rw [if_pos hx]
      rcases List.mem_cons.mp hy with heq | hy'
      · subst heq
        exact le_trans (ih x x (List.mem_cons_self _ _)) (le_of_lt hx)
      · exact ih x y hy'
    · rw [if_neg hx]
      rcases List.mem_cons.mp hy with heq | hy'
      · subst heq
        exact ih y y (List.mem_cons_self _ _)
      · rcases List.mem_cons.mp hy' with heq | hy''
        · subst heq
          exact le_trans (ih best best (List.mem_cons_self _ _)) (le_of_not_lt hx)
        · exact ih best y (List.mem_cons_of_mem _ hy'')

/-- Python's `min` keeps the first minimum: on a candidate list with strictly
increasing indices, any candidate tying the selected key has an index at
least the selected one. -/
theorem selectMin_stable (best : ℕ × ℕ) (l : List (ℕ × ℕ))
    (hinc : (best :: l).Pairwise (fun a b => a.1 < b.1)) :
    ∀ y ∈ best :: l, y.2 = (selectMin best l).2 → (selectMin best l).1 ≤ y.1 := by
  induction l generalizing best with
  | nil =>
    intro y hy _
    rw [List.mem_singleton] at hy
    subst hy
    exact le_refl _
  | cons x xs ih =>
    intro y hy hey
    rw [selectMin] at hey ⊢
    by_cases hx : x.2 < best.2
    · rw [if_pos hx] at hey ⊢
      have htail : (x :: xs).Pairwise (fun a b => a.1 < b.1) :=
        (List.pairwise_cons.mp hinc).2
      rcases List.mem_cons.mp hy with heq | hy'
      · exfalso
        have h1 : (selectMin x xs).2 ≤ x.2 := selectMin_le x xs x (List.mem_cons_self _ _)
        rw [← hey, heq] at h1
        exact absurd (lt_of_le_of_lt h1 hx) (lt_irrefl _)
      · exact ih x htail y hy' hey
    · rw [if_neg hx] at hey ⊢
      have hbx : (best :: xs).Pairwise (fun a b => a.1 < b.1) := by
        rcases List.pairwise_cons.mp hinc with ⟨hhead, htail⟩
        rw [List.pairwise_cons]
        refine ⟨fun a ha => hhead a (List.mem_cons_of_mem _ ha),
          (List.pairwise_cons.mp htail).2⟩
      rcases List.mem_cons.mp hy with heq | hy'
      · subst heq
        exact ih y hbx y (List.mem_cons_self _ _) hey
      · rcases List.mem_cons.mp hy' with heq | hy''
        · rcases selectMin_eq_or_lt best xs with hsel | ⟨-, hlt⟩
          · rw [hsel]
            rw [heq]
            exact le_of_lt ((List.pairwise_cons.mp hinc).1 x (List.mem_cons_self _ _))
          · exfalso
            have hlt2 : (selectMin best xs).2 < y.2 := by
              rw [heq]
              exact lt_of_lt_of_le hlt (le_of_not_lt hx)
            rw [← hey] at hlt2
            exact lt_irrefl _ hlt2
        · exact ih best hbx y (List.mem_cons_of_mem _ hy'') hey

/-- Every index in `headsFrom n files` is at least `n`. -/
theorem headsFrom_ge (n : ℕ) (files : List FS) :
    ∀ y ∈ headsFrom n files, n ≤ y.1 := by
  induction files generalizing n with
  | nil => intro y hy; simp [headsFrom] at hy
  | cons fs rest ih =>
    intro y hy
    rw [headsFrom] at hy
    cases hb : fs.buf with
    | none =>
      rw [hb] at hy
      exact le_trans (Nat.le_succ n) (ih (n + 1) y hy)
    | some b =>
      rw [hb] at hy
      rcases List.mem_cons.mp hy with rfl | hy'
      · exact le_refl n
      · exact le_trans (Nat.le_succ n) (ih (n + 1) y hy')

/-- The candidate indices of `headsFrom` are strictly increasing. -/
theorem headsFrom_pairwise (n : ℕ) (files : List FS) :
    (headsFrom n files).Pairwise (fun a b => a.1 < b.1) := by
  induction files generalizing n with
  | nil => simp [headsFrom]
  | cons fs rest ih =>
    rw [headsFrom]
    cases fs.buf with
    | none => exact ih (n + 1)
    | some b =>
      rw [List.pairwise_cons]
      exact ⟨fun y hy => lt_of_lt_of_le (Nat.lt_succ_self n) (headsFrom_ge (n + 1) rest y hy),
        ih (n + 1)⟩

/-- Membership in `headsFrom`: a candidate `(j, t)` names a live file at
absolute index `j` whose buffered first record has time `t`. -/
theorem headsFrom_mem (n : ℕ) (files : List FS) (j t : ℕ)
    (h : (j, t) ∈ headsFrom n files) :
    ∃ fs b, n ≤ j ∧ files[j - n]? = some fs ∧ fs.buf = some b ∧
      t = (b.headD ⟨0, []⟩).time := by
  induction files generalizing n with
  | nil => simp [headsFrom] at h
  | cons fs rest ih =>
    rw [headsFrom] at h
    cases hb : fs.buf with
    | none =>
      rw [hb] at h
      obtain ⟨fs', b', hn, hget, hbuf, ht⟩ := ih (n + 1) h
      refine ⟨fs', b', by omega, ?_, hbuf, ht⟩
      have : j - n = (j - (n + 1)) + 1 := by omega
      rw [this, List.getElem?_cons_succ]
      exact hget
    | some b =>
      rw [hb] at h
      rcases List.mem_cons.mp h with heq | h'
      · injection heq with h1 h2
        subst h1
        subst h2
        exact ⟨fs, b, le_refl _, by simp, hb, rfl⟩
      · obtain ⟨fs', b', hn, hget, hbuf, ht⟩ := ih (n + 1) h'
        refine ⟨fs', b', by omega, ?_, hbuf, ht⟩
        have : j - n = (j - (n + 1)) + 1 := by omega
        rw [this, List.getElem?_cons_succ]
        exact hget

/-- If every file is reported exhausted by `headsFrom`, the buffers really
are all `none`. -/
theorem headsFrom_nil (n : ℕ) (files : List FS) (h : headsFrom n files = []) :
    ∀ fs ∈ files, fs.buf = none := by
  induction files generalizing n with
  | nil => intro fs hfs; simp at hfs
  | cons fs rest ih =>
    rw [headsFrom] at h
    cases hb : fs.buf with
    | none =>
      rw [hb] at h
      intro fs' hfs'
      rcases List.mem_cons.mp hfs' with rfl | hfs''
      · exact hb
      · exact ih (n + 1) h fs' hfs''
    | some b => rw [hb] at h; exact absurd h (by simp)

/-- Specification of `get_min`: the selected index is a live file whose
buffered head time is minimal, and on ties it is the lowest such index. -/
theorem get_min_spec (files : List FS) (i : ℕ) (h : get_min files = some i) :
    ∃ t, (i, t) ∈ headsOf files ∧ (∀ y ∈ headsOf files, t ≤ y.2) ∧
      (∀ y ∈ headsOf files, y.2 = t → i ≤ y.1) := by
  unfold get_min at h
  cases hh : headsOf files with
  | nil =>
    rw [hh] at h
    exact absurd h (by simp)
  | cons x xs =>
    rw [hh] at h
    have h' : (selectMin x xs).1 = i := by
      have h2 : some (selectMin x xs).1 = some i := h
      injection h2
    refine ⟨(selectMin x xs).2, ?_, ?_, ?_⟩
    · rw [← h']
      rcases selectMin_eq_or_lt x xs with heq | ⟨hmem, -⟩
      · rw [heq]; exact List.mem_cons_self _ _
      · exact List.mem_cons_of_mem _ hmem
    · intro y hy
      exact selectMin_le x xs y hy
    · intro y hy hey
      rw [← h']
      have hinc : (x :: xs).Pairwise (fun a b => a.1 < b.1) := by
        have hpw := headsFrom_pairwise 0 files
        have hof : headsOf files = headsFrom 0 files := rfl
        rw [← hof, hh] at hpw
        exact hpw
      exact selectMin_stable x xs hinc y hy hey

/-- `headsFrom` contains an entry for every live file. -/
theorem headsFrom_mem_intro (bk : List MRec) :
    ∀ (files : List FS) (n k : ℕ) (hk : k < files.length),
    files[k].buf = some bk → (n + k, (bk.headD ⟨0, []⟩).time) ∈ headsFrom n files := by
  intro files
  induction files with
  | nil => intro n k hk; simp at hk
  | cons fs rest ih =>
    intro n k hk hbuf
    cases k with
    | zero =>
      simp only [List.getElem_cons_zero] at hbuf
      rw [headsFrom, hbuf]
      exact List.mem_cons_self _ _
    | succ k' =>
      simp only [List.getElem_cons_succ] at hbuf
      have hmem := ih (n + 1) k' (by simpa using Nat.lt_of_succ_lt_succ hk) hbuf
      have harith : n + 1 + k' = n + (k' + 1) := by omega
      rw [headsFrom]
      cases fs.buf with
      | none => rw [← harith]; exact hmem
      | some b => exact List.mem_cons_of_mem _ (by rw [← harith]; exact hmem)

/-- `initFS` on an empty file: exhausted from the start. -/
theorem initFS_nil (sz : ℕ) : initFS sz [] = ⟨none, []⟩ := rfl

/-- `initFS` on a non-empty file: first chunk of `sz` rows buffered. -/
theorem initFS_cons (sz : ℕ) (rows : List Row) (h : rows ≠ []) :
    initFS sz rows = ⟨some ((rows.take sz).map rowToRec), rows.drop sz⟩ := by
  unfold initFS read_chunk
  rw [if_neg (by simpa using h)]

/-- `advance` on a live buffer, spelled as an `if`. -/
theorem advance_some (sz : ℕ) (fs : FS) (b : List MRec) (hb : fs.buf = some b) :
    advance sz fs =
      if b.tail.isEmpty then initFS sz fs.rest else ⟨some b.tail, fs.rest⟩ := by
  unfold advance
  rw [hb]

/-- The pending records of an initial file state are exactly its rows. -/
theorem flatten_initFS (sz : ℕ) (rows : List Row) :
    flattenFS (initFS sz rows) = rows.map rowToRec := by
  by_cases h : rows = []
  · subst h
    rfl
  · rw [initFS_cons sz rows h]
    show (rows.take sz).map rowToRec ++ (rows.drop sz).map rowToRec = rows.map rowToRec
    rw [← List.map_append, List.take_append_drop]

/-- The initial file state satisfies the per-file invariant. -/
theorem initFS_inv (sz : ℕ) (rows : List Row) (hsz : 0 < sz)
    (hsort : rows.Pairwise (fun a b => a.time ≤ b.time)) :
    FSInv (initFS sz rows) := by
  refine ⟨?_, ?_, ?_⟩
  · intro hb
    by_cases h : rows = []
    · subst h; rfl
    · rw [initFS_cons sz rows h] at hb
      simp at hb
  · intro b hb
    by_cases h : rows = []
    · subst h; rw [initFS_nil] at hb; simp at hb
    · rw [initFS_cons sz rows h] at hb
      simp only [Option.some.injEq] at hb
      subst hb
      intro hnil
      rw [List.map_eq_nil_iff] at hnil
      have h2 : (rows.take sz).length = min sz rows.length := List.length_take _ _
      rw [hnil] at h2
      have h3 : 0 < rows.length := List.length_pos.mpr h
      simp at h2
      omega
  · rw [flatten_initFS]
    exact List.Pairwise.map _ (fun a b hab => hab) hsort

/-- Advancing past the consumed head leaves the tail of the pending
records. -/
theorem advance_flatten (sz : ℕ) (fs : FS) (b : List MRec) (hb : fs.buf = some b) :
    flattenFS (advance sz fs) = b.tail ++ fs.rest.map rowToRec := by
  rw [advance_some sz fs b hb]
  by_cases ht : b.tail.isEmpty
  · have htn : b.tail = [] := List.isEmpty_iff.mp ht
    rw [if_pos ht, flatten_initFS, htn, List.nil_append]
  · rw [if_neg ht]
    rfl

/-- Advancing a file preserves the per-file invariant. -/
theorem advance_inv (sz : ℕ) (fs : FS) (hsz : 0 < sz) (hinv : FSInv fs) :
    FSInv (advance sz fs) := by
  obtain ⟨hnone, hsome, hsort⟩ := hinv
  cases hb : fs.buf with
  | none =>
    have : advance sz fs = fs := by unfold advance; rw [hb]
    rw [this]
    exact ⟨hnone, hsome, hsort⟩
  | some b =>
    have hflat : flattenFS fs = b ++ fs.rest.map rowToRec := by
      unfold flattenFS
      rw [hb]
      rfl
    rw [advance_some sz fs b hb]
    by_cases ht : b.tail.isEmpty
    · rw [if_pos ht]
      apply initFS_inv sz fs.rest hsz
      have hs2 : (fs.rest.map rowToRec).Pairwise (fun a b => a.time ≤ b.time) :=
        hsort.sublist (by rw [hflat]; exact List.sublist_append_right _ _)
      rw [List.pairwise_map] at hs2
      exact hs2
    · rw [if_neg ht]
      refine ⟨by simp, ?_, ?_⟩
      · intro b' hb'
        simp only [Option.some.injEq] at hb'
        subst hb'
        exact fun hc => ht (by rw [hc]; rfl)
      · have hfl : flattenFS ⟨some b.tail, fs.rest⟩ = b.tail ++ fs.rest.map rowToRec := rfl
        rw [hfl]
        apply hsort.sublist
        rw [hflat]
        exact (List.tail_sublist b).append_right _

/-- `taggedFrom` counts exactly the pending records. -/
theorem taggedFrom_length (files : List FS) :
    ∀ n, (taggedFrom n files).length = totalRecs files := by
  induction files with
  | nil => intro n; simp [taggedFrom, totalRecs]
  | cons fs rest ih =>
    intro n
    simp only [taggedFrom, totalRecs, List.length_append, List.length_map, List.map_cons,
      List.sum_cons]
    rw [ih (n + 1)]
    simp [flattenFS, totalRecs]

/-- Consuming the head record of file `i` removes exactly its tagged record
from the pending multiset. -/
theorem taggedFrom_set_perm (hd : MRec) (x : FS) :
    ∀ (files : List FS) (i n : ℕ) (hi : i < files.length),
    flattenFS files[i] = hd :: flattenFS x →
    List.Perm (taggedFrom n files)
      (⟨hd.time, n + i, hd.hist⟩ :: taggedFrom n (files.set i x)) := by
  intro files
  induction files with
  | nil => intro i n hi; simp at hi
  | cons fs rest ih =>
    intro i n hi hflat
    cases i with
    | zero =>
      simp only [List.getElem_cons_zero] at hflat
      rw [List.set_cons_zero, taggedFrom, taggedFrom, hflat, List.map_cons]
      simp only [Nat.add_zero]
      exact List.Perm.refl _
    | succ k =>
      simp only [List.getElem_cons_succ] at hflat
      rw [List.set_cons_succ, taggedFrom, taggedFrom]
      have hih := ih k (n + 1) (by simpa using Nat.lt_of_succ_lt_succ hi) hflat
      have harith : n + 1 + k = n + (k + 1) := by omega
      rw [harith] at hih
      exact (List.Perm.append_left _ hih).trans List.perm_middle

/-- If every file's pending records dominate `r` (strictly later, or same
time from a file index at least `r`'s), then every pending tagged record is
`mergeOrder`-after `r`. -/
theorem taggedFrom_bound (r : TRec) :
    ∀ (files : List FS) (n : ℕ),
    (∀ (k : ℕ) (hk : k < files.length), ∀ y ∈ flattenFS files[k],
      r.time < y.time ∨ (r.time = y.time ∧ r.src ≤ n + k)) →
    ∀ x ∈ taggedFrom n files, mergeOrder r x := by
  intro files
  induction files with
  | nil => intro n _ x hx; simp [taggedFrom] at hx
  | cons fs rest ih =>
    intro n H x hx
    rw [taggedFrom, List.mem_append] at hx
    rcases hx with hx | hx
    · rw [List.mem_map] at hx
      obtain ⟨y, hy, rfl⟩ := hx
      have := H 0 (by simp) y (by simpa using hy)
      simpa [mergeOrder] using this
    · refine ih (n + 1) ?_ x hx
      intro k hk y hy
      have := H (k + 1) (by simpa using Nat.succ_lt_succ hk) y (by simpa using hy)
      rcases this with h | ⟨h1, h2⟩
      · exact Or.inl h
      · exact Or.inr ⟨h1, by omega⟩

/-- A merge state whose files all have empty pending lists carries no tagged
records. -/
theorem taggedFrom_eq_nil (files : List FS) (hf : ∀ fs ∈ files, flattenFS fs = []) :
    ∀ n, taggedFrom n files = [] := by
  induction files with
  | nil => intro n; rfl
  | cons fs rest ih =>
    intro n
    rw [taggedFrom, hf fs (List.mem_cons_self _ _),
      ih (fun fs' hfs' => hf fs' (List.mem_cons_of_mem _ hfs')) (n + 1)]
    rfl

/-- When `step` terminates the merge, nothing is pending. -/
theorem step_none (sz : ℕ) (files : List FS) (hstep : step sz files = none)
    (hinv : MergeInv files) : taggedRecs files = [] := by
  cases hmin : get_min files with
  | some i =>
    exfalso
    obtain ⟨t, hmem, -, -⟩ := get_min_spec files i hmin
    obtain ⟨fsi, b, -, hget, hbuf, -⟩ := headsFrom_mem 0 files i t hmem
    rw [Nat.sub_zero] at hget
    have hgetD : files[i]?.getD (⟨none, []⟩ : FS) = fsi := by rw [hget]; rfl
    simp [step, hmin, List.getD_eq_getElem?_getD, hgetD, hbuf] at hstep
  | none =>
    unfold get_min at hmin
    cases hh : headsOf files with
    | cons x xs => rw [hh] at hmin; exact absurd hmin (by simp)
    | nil =>
      have hnone : ∀ fs ∈ files, fs.buf = none := headsFrom_nil 0 files hh
      apply taggedFrom_eq_nil
      intro fs hfs
      have hb := hnone fs hfs
      have hr := (hinv fs hfs).1 hb
      unfold flattenFS
      rw [hb, hr]
      rfl

/-- One successful merge step: the invariant is preserved, the emitted record
plus the new pending multiset is the old pending multiset, every remaining
record is `mergeOrder`-after the emitted one, and exactly one record was
consumed. -/
theorem step_spec (sz : ℕ) (hsz : 0 < sz) (files files' : List FS) (r : TRec)
    (hstep : step sz files = some (r, files')) (hinv : MergeInv files) :
    MergeInv files' ∧
    List.Perm (taggedRecs files) (r :: taggedRecs files') ∧
    (∀ x ∈ taggedRecs files', mergeOrder r x) ∧
    totalRecs files = totalRecs files' + 1 := by
  cases hmin : get_min files with
  | none => simp [step, hmin] at hstep
  | some i =>
    obtain ⟨t, hmem, hle, hstable⟩ := get_min_spec files i hmin
    obtain ⟨fsi, b, -, hget, hbuf, ht⟩ := headsFrom_mem 0 files i t hmem
    rw [Nat.sub_zero] at hget
    obtain ⟨hi, hfsi⟩ := List.getElem?_eq_some_iff.mp hget
    have hgetD : files[i]?.getD (⟨none, []⟩ : FS) = fsi := by rw [hget]; rfl
    simp only [step, hmin, List.getD_eq_getElem?_getD, hgetD, hbuf, Option.some.injEq,
      Prod.mk.injEq] at hstep
    obtain ⟨hr, hf⟩ := hstep
    subst hr
    subst hf
    have hfsinv : FSInv fsi := hinv fsi (hfsi ▸ List.getElem_mem hi)
    have hbne : b ≠ [] := hfsinv.2.1 b hbuf
    obtain ⟨hd, tl, rfl⟩ := List.exists_cons_of_ne_nil hbne
    have hflat_i : flattenFS fsi = hd :: flattenFS (advance sz fsi) := by
      rw [advance_flatten sz fsi _ hbuf]
      unfold flattenFS
      rw [hbuf]
      rfl
    have hrt : t = hd.time := ht
    have hperm : List.Perm (taggedRecs files)
        (⟨hd.time, i, hd.hist⟩ :: taggedRecs (files.set i (advance sz fsi))) := by
      have hp := taggedFrom_set_perm hd (advance sz fsi) files i 0 hi
        (by rw [hfsi]; exact hflat_i)
      simpa [taggedRecs] using hp
    refine ⟨?_, hperm, ?_, ?_⟩
    · intro fs hfs
      rcases List.mem_or_eq_of_mem_set hfs with hmem' | heq
      · exact hinv fs hmem'
      · rw [heq]
        exact advance_inv sz fsi hsz hfsinv
    · intro x hx
      refine taggedFrom_bound _ (files.set i (advance sz fsi)) 0 ?_ x hx
      intro k hk y hy
      rw [List.length_set] at hk
      by_cases hki : i = k
      · subst hki
        rw [List.getElem_set_self (by rw [List.length_set]; exact hk)] at hy
        have hsorted : (hd :: flattenFS (advance sz fsi)).Pairwise
            (fun a b => a.time ≤ b.time) := hflat_i ▸ hfsinv.2.2
        have hdy : hd.time ≤ y.time := (List.pairwise_cons.mp hsorted).1 y hy
        rcases lt_or_eq_of_le hdy with hlt | heq
        · exact Or.inl hlt
        · exact Or.inr ⟨heq, by simp⟩
      · rw [List.getElem_set_ne hki (by rw [List.length_set]; exact hk)] at hy
        cases hbk : files[k].buf with
        | none =>
          have hrk : files[k].rest = [] := (hinv files[k] (List.getElem_mem hk)).1 hbk
          have : flattenFS files[k] = [] := by unfold flattenFS; rw [hbk, hrk]; rfl
          rw [this] at hy
          exact absurd hy (List.not_mem_nil y)
        | some bk =>
          have hinvk := hinv files[k] (List.getElem_mem hk)
          have hbkne : bk ≠ [] := hinvk.2.1 bk hbk
          obtain ⟨hdk, tlk, rfl⟩ := List.exists_cons_of_ne_nil hbkne
          have hmemk : (k, hdk.time) ∈ headsOf files := by
            have := headsFrom_mem_intro (hdk :: tlk) files 0 k hk hbk
            simpa [headsOf] using this
          have hlek : t ≤ hdk.time := hle (k, hdk.time) hmemk
          have hflatk : flattenFS files[k] =
              hdk :: (tlk ++ files[k].rest.map rowToRec) := by
            unfold flattenFS
            rw [hbk]
            rfl
          have hsortk := hinvk.2.2
          rw [hflatk] at hsortk
          rw [hflatk] at hy
          have hdky : hdk.time ≤ y.time := by
            rcases List.mem_cons.mp hy with heq | hy'
            · rw [heq]
            · exact (List.pairwise_cons.mp hsortk).1 y hy'
          rcases lt_or_eq_of_le (le_trans (hrt ▸ hlek) hdky) with hlt | heq
        -- here the emitted record's time is hd.time
          · exact Or.inl hlt
          · refine Or.inr ⟨heq, ?_⟩
            have hteq : hdk.time = t := by omega
            have hik := hstable (k, hdk.time) hmemk hteq
            simpa using hik
    · have hlen := hperm.length_eq
      rw [taggedRecs, taggedRecs, taggedFrom_length, List.length_cons,
        taggedFrom_length] at hlen
      omega

/-- Full-run specification of the merge loop: the output is a permutation of
the pending records, in `mergeOrder`. -/
theorem mergeRun_spec (sz : ℕ) (hsz : 0 < sz) :
    ∀ (fuel : ℕ) (files : List FS), MergeInv files → totalRecs files ≤ fuel →
    List.Perm (mergeRun sz fuel files) (taggedRecs files) ∧
      (mergeRun sz fuel files).Pairwise mergeOrder := by
  intro fuel
  induction fuel with
  | zero =>
    intro files hinv hle
    have h0 : totalRecs files = 0 := Nat.le_zero.mp hle
    have hemp : taggedRecs files = [] := by
      rw [taggedRecs]
      apply List.length_eq_zero.mp
      rw [taggedFrom_length]
      exact h0
    rw [mergeRun, hemp]
    exact ⟨List.Perm.refl _, List.Pairwise.nil⟩
  | succ fuel ih =>
    intro files hinv hle
    cases hs : step sz files with
    | none =>
      have hemp := step_none sz files hs hinv
      simp only [mergeRun, hs, hemp]
      exact ⟨List.Perm.refl _, List.Pairwise.nil⟩
    | some p =>
      obtain ⟨r, files'⟩ := p
      obtain ⟨hinv', hperm, hbound, htot⟩ := step_spec sz hsz files files' r hs hinv
      obtain ⟨ihp, ihs⟩ := ih files' hinv' (by omega)
      simp only [mergeRun, hs]
      refine ⟨(ihp.cons r).trans hperm.symm, ?_⟩
      rw [List.pairwise_cons]
      exact ⟨fun x hx => hbound x (ihp.subset hx), ihs⟩

/-- The initial merge state holds exactly the tagged input records. -/
theorem taggedFrom_map_init (sz : ℕ) :
    ∀ (inputs : List (List Row)) (n : ℕ),
    taggedFrom n (inputs.map (initFS sz)) = taggedInputsFrom n inputs := by
  intro inputs
  induction inputs with
  | nil => intro n; rfl
  | cons rows rest ih =>
    intro n
    rw [List.map_cons, taggedFrom, taggedInputsFrom, flatten_initFS, List.map_map,
      ih (n + 1)]
    rfl

/-- C1.  On per-file time-sorted inputs, `histogram_generator` emits a
permutation of the union of all input records, each tagged with its source
file index, in globally non-decreasing time order with ties broken by the
lowest source file index (`mergeOrder` captures both). -/
theorem c1_stream_merge (sz : ℕ) (inputs : List (List Row)) (hsz : 0 < sz)
    (hsorted : ∀ rows ∈ inputs, rows.Pairwise (fun a b => a.time ≤ b.time)) :
    List.Perm (histogram_generator sz inputs) (taggedInputs inputs) ∧
    (histogram_generator sz inputs).Pairwise mergeOrder := by
  have hinv : MergeInv (inputs.map (initFS sz)) := by
    intro fs hfs
    rw [List.mem_map] at hfs
    obtain ⟨rows, hrows, rfl⟩ := hfs
    exact initFS_inv sz rows hsz (hsorted rows hrows)
  obtain ⟨hp, hs⟩ := mergeRun_spec sz hsz (totalRecs (inputs.map (initFS sz)))
    (inputs.map (initFS sz)) hinv (le_refl _)
  have htag : taggedRecs (inputs.map (initFS sz)) = taggedInputs inputs := by
    rw [taggedRecs, taggedInputs]
    exact taggedFrom_map_init sz inputs 0
  exact ⟨htag ▸ hp, hs⟩

/-- Witness for `c1_stream_merge`: two files, one with records at times 1 and
3, one with a single record at time 1 (tying the first file's head). -/
theorem c1_stream_merge_witness :
    List.Perm
      (histogram_generator 2 [[⟨1, 0, 0, [5]⟩, ⟨3, 0, 0, [7]⟩], [⟨1, 0, 0, [9]⟩]])
      (taggedInputs [[⟨1, 0, 0, [5]⟩, ⟨3, 0, 0, [7]⟩], [⟨1, 0, 0, [9]⟩]]) ∧
    (histogram_generator 2
      [[⟨1, 0, 0, [5]⟩, ⟨3, 0, 0, [7]⟩], [⟨1, 0, 0, [9]⟩]]).Pairwise mergeOrder :=
  c1_stream_merge 2 [[⟨1, 0, 0, [5]⟩, ⟨3, 0, 0, [7]⟩], [⟨1, 0, 0, [9]⟩]]
    (by norm_num) (by decide)

/-- Summing `getD` over an index range is summing a prefix. -/
theorem sum_range_getD (l : List ℕ) : ∀ n : ℕ,
    ((List.range n).map (fun i => l.getD i 0)).sum = (l.take n).sum := by
  induction l with
  | nil =>
    intro n
    have hz : (fun i => ([] : List ℕ).getD i 0) = fun _ => 0 := by
      funext i
      simp
    rw [hz, List.map_const', List.sum_replicate]
    simp
  | cons a t ih =>
    intro n
    cases n with
    | zero => simp
    | succ n =>
      rw [List.range_succ_eq_map, List.map_cons, List.map_map, List.sum_cons]
      have hc : ((fun i => (a :: t).getD i 0) ∘ Nat.succ) = fun i => t.getD i 0 := by
        funext i
        simp [Function.comp]
      rw [hc, ih n, List.getD_cons_zero, List.take_succ_cons, List.sum_cons]

/-- The counts of any selection of distinct-index bins are bounded by the
sample's total histogram mass. -/
theorem sum_getD_filter_le (l : List ℕ) (H : ℕ) (p : ℕ → Bool) :
    (((List.range H).filter p).map (fun i => l.getD i 0)).sum ≤ l.sum := by
  have h1 : (((List.range H).filter p).map (fun i => l.getD i 0)).Sublist
      ((List.range H).map (fun i => l.getD i 0)) :=
    (List.filter_sublist _).map _
  calc (((List.range H).filter p).map (fun i => l.getD i 0)).sum
      ≤ ((List.range H).map (fun i => l.getD i 0)).sum :=
        h1.sum_le_sum (fun a _ => Nat.zero_le a)
    _ = (l.take H).sum := sum_range_getD l H
    _ ≤ l.sum := (List.take_sublist H l).sum_le_sum (fun a _ => Nat.zero_le a)

/-- `processSample` adds the sample's qualifying counts to `ss_cnt`. -/
theorem processSample_ssCnt (binVals lowerVals upperVals : List ℚ)
    (interval iStart iEnd : ℚ) (acc : IRes) (s : TRec) :
    (processSample binVals lowerVals upperVals interval iStart iEnd acc s).ssCnt =
      acc.ssCnt +
        ((qualIdx binVals interval (s.time : ℚ) iEnd).map
          (fun i => s.hist.getD i 0)).sum := by
  simp only [processSample]
  split <;> rfl

/-- `process_interval` counts at most the buffered samples' total mass. -/
theorem process_interval_ssCnt_le (binVals lowerVals upperVals : List ℚ)
    (interval iStart iEnd : ℚ) (samples : List TRec) :
    (process_interval binVals lowerVals upperVals interval samples iStart iEnd).ssCnt ≤
      totalMass samples := by
  suffices h : ∀ (ss : List TRec) (acc : IRes),
      (ss.foldl (processSample binVals lowerVals upperVals interval iStart iEnd)
        acc).ssCnt ≤ acc.ssCnt + totalMass ss by
    simpa [process_interval] using
      h samples ⟨0, none, none, List.replicate binVals.length 0⟩
  intro ss
  induction ss with
  | nil => intro acc; simp [totalMass]
  | cons s rest ih =>
    intro acc
    rw [List.foldl_cons]
    calc (rest.foldl _ (processSample binVals lowerVals upperVals interval iStart iEnd
          acc s)).ssCnt
        ≤ (processSample binVals lowerVals upperVals interval iStart iEnd
            acc s).ssCnt + totalMass rest := ih _
      _ ≤ acc.ssCnt + s.hist.sum + totalMass rest := by
          rw [processSample_ssCnt]
          have := sum_getD_filter_le s.hist binVals.length
            (fun i => decide (start_times binVals interval (s.time : ℚ) i < iEnd))
          have h2 : ((qualIdx binVals interval (s.time : ℚ) iEnd).map
              (fun i => s.hist.getD i 0)).sum ≤ s.hist.sum := this
          omega
      _ = acc.ssCnt + totalMass (s :: rest) := by
          simp [totalMass]
          omega

/-- `refill` moves records from the generator to the buffer without creating
or destroying mass. -/
theorem refill_mass (maxLat stop : ℚ) : ∀ (pending arr : List TRec) (more : Bool),
    totalMass (refill maxLat stop pending arr more).1 +
      totalMass (refill maxLat stop pending arr more).2.1 =
      totalMass arr + totalMass pending := by
  intro pending
  induction pending with
  | nil =>
    intro arr more
    rw [refill]
    split <;> simp [totalMass]
  | cons r rest ih =>
    intro arr more
    rw [refill]
    split
    · rw [ih (arr ++ [r]) more]
      simp [totalMass]
      omega
    · simp [totalMass]

/-- Evicting buffered samples only decreases mass. -/
theorem totalMass_filter_le (p : TRec → Bool) (arr : List TRec) :
    totalMass (arr.filter p) ≤ totalMass arr :=
  ((List.filter_sublist arr).map _).sum_le_sum (fun a _ => Nat.zero_le a)

/-- One driver iteration: emitted sample counts stay bounded by the total
input mass, and the un-emitted mass does not grow. -/
theorem driverStep_inv (binVals lowerVals upperVals : List ℚ)
    (interval maxLat : ℚ) (M : ℕ) (st : DState)
    (hout : ∀ e ∈ st.out, e.2 ≤ M)
    (hmass : totalMass st.arr + totalMass st.pending ≤ M) :
    (∀ e ∈ (driverStep binVals lowerVals upperVals interval maxLat st).out, e.2 ≤ M) ∧
    totalMass (driverStep binVals lowerVals upperVals interval maxLat st).arr +
      totalMass (driverStep binVals lowerVals upperVals interval maxLat st).pending
      ≤ M := by
  have hrf := refill_mass maxLat st.stop st.pending st.arr st.more
  simp only [driverStep]
  split
  · refine ⟨fun e he => hout e he, ?_⟩
    simp only
    omega
  · refine ⟨?_, ?_⟩
    · intro e he
      simp only at he
      split at he <;> split at he
      all_goals
        first
          | exact hout e he
          | · rcases List.mem_append.mp he with he' | he'
              · exact hout e he'
              · have he2 := List.mem_singleton.mp he'
                subst he2
                refine le_trans (process_interval_ssCnt_le _ _ _ _ _ _ _) ?_
                omega
    · simp only
      refine le_trans (Nat.add_le_add_right (totalMass_filter_le _ _) _) ?_
      omega
/-- C7 (amended).  Every emitted `IntervalResult`'s sample count is at most
the total histogram mass (the sum of all counts) of the input records; the
claim's bound by the number of input rows, and the bound on the sum across
intervals, are both false (see the counterexample). -/
theorem c7_amended (binVals lowerVals upperVals : List ℚ) (interval maxLat : ℚ)
    (fuel : ℕ) (rows : List TRec) :
    ∀ e ∈ (driverLoop binVals lowerVals upperVals interval maxLat fuel
      (initDState interval rows)).out, e.2 ≤ totalMass rows := by
  have key : ∀ (m : ℕ) (st : DState),
      (∀ e ∈ st.out, e.2 ≤ totalMass rows) →
      totalMass st.arr + totalMass st.pending ≤ totalMass rows →
      ∀ e ∈ (driverLoop binVals lowerVals upperVals interval maxLat m st).out,
        e.2 ≤ totalMass rows := by
    intro m
    induction m with
    | zero => intro st hout _ e he; exact hout e he
    | succ m ih =>
      intro st hout hmass
      rw [driverLoop]
      split
      · obtain ⟨hout', hmass'⟩ := driverStep_inv binVals lowerVals upperVals
          interval maxLat (totalMass rows) st hout hmass
        exact ih _ hout' hmass'
      · exact hout
  refine key fuel (initDState interval rows) ?_ ?_
  · intro e he
    exact absurd he (List.not_mem_nil e)
  · simp [initDState, totalMass]

set_option maxRecDepth 40000 in
/-- Witness for `c7_amended`: the two single-sample files of the spec's
concrete scenario, run through the full pipeline. -/
theorem c7_amended_witness :
    ((driverLoop
        ((List.range 4).map (fun i => plat_idx_to_val_coarse i 4 (1/2)))
        ((List.range 4).map (fun i => plat_idx_to_val_coarse i 4 0))
        ((List.range 4).map (fun i => plat_idx_to_val_coarse i 4 1))
        1000 20 5
        (initDState 1000 (histogram_generator 10000
          [[⟨1000, 0, 0, [0, 5, 0, 0]⟩], [⟨1000, 0, 0, [0, 0, 3, 0]⟩]]))).out.headD
        (0, 0)).2 ≤
      totalMass (histogram_generator 10000
        [[⟨1000, 0, 0, [0, 5, 0, 0]⟩], [⟨1000, 0, 0, [0, 0, 3, 0]⟩]]) :=
  c7_amended
    ((List.range 4).map (fun i => plat_idx_to_val_coarse i 4 (1/2)))
    ((List.range 4).map (fun i => plat_idx_to_val_coarse i 4 0))
    ((List.range 4).map (fun i => plat_idx_to_val_coarse i 4 1))
    1000 20 5
    (histogram_generator 10000
      [[⟨1000, 0, 0, [0, 5, 0, 0]⟩], [⟨1000, 0, 0, [0, 0, 3, 0]⟩]])
    _ (by with_unfolding_all decide)

set_option maxRecDepth 40000 in
/-- C7 (counterexample).  The spec's own concrete scenario: two input files
with one row each (`counts = [0,5,0,0]` and `[0,0,3,0]`, `endTime = 1000`,
interval 1000 ms, H = 4 at coarseness 4), run through the merge and the
interval loop.  One `IntervalResult` is emitted, with `sampleCount = 8` — the
histogram mass — which exceeds the total number of input rows, `2`. -/
theorem c7_counterexample :
    ¬ ((((driverLoop
        ((List.range 4).map (fun i => plat_idx_to_val_coarse i 4 (1/2)))
        ((List.range 4).map (fun i => plat_idx_to_val_coarse i 4 0))
        ((List.range 4).map (fun i => plat_idx_to_val_coarse i 4 1))
        1000 20 5
        (initDState 1000 (histogram_generator 10000
          [[⟨1000, 0, 0, [0, 5, 0, 0]⟩], [⟨1000, 0, 0, [0, 0, 3, 0]⟩]]))).out.map
        Prod.snd).sum)
      ≤ (([[(⟨1000, 0, 0, [0, 5, 0, 0]⟩ : Row)], [⟨1000, 0, 0, [0, 0, 3, 0]⟩]].map
          List.length).sum)) := by
  with_unfolding_all decide

/-- Filtering `range n` by an upward-closed predicate yields a suffix of
`range n`. -/
theorem filter_upclosed_eq_range' (p : ℕ → Bool) :
    ∀ n : ℕ, (∀ i, i + 1 < n → p i = true → p (i + 1) = true) →
    (List.range n).filter p =
      List.range' (n - ((List.range n).filter p).length)
        ((List.range n).filter p).length := by
  intro n
  induction n with
  | zero => intro _; rfl
  | succ n ih =>
    intro hup
    have hup' : ∀ i, i + 1 < n → p i = true → p (i + 1) = true :=
      fun i hi hp => hup i (by omega) hp
    have hlen : ((List.range n).filter p).length ≤ n :=
      le_trans (List.length_filter_le p _) (by simp)
    rw [List.range_succ, List.filter_append]
    cases hpn : p n with
    | true =>
      have hficons : List.filter p [n] = [n] := by simp [hpn]
      rw [hficons]
      have hlcons : ((List.range n).filter p ++ [n]).length =
          ((List.range n).filter p).length + 1 := by simp
      rw [hlcons]
      have harith : n + 1 - (((List.range n).filter p).length + 1) =
          n - ((List.range n).filter p).length := by omega
      rw [harith, List.range'_concat]
      have hend : n - ((List.range n).filter p).length +
          1 * ((List.range n).filter p).length = n := by omega
      rw [hend, ih hup']
      simp [List.length_range']
    | false =>
      have hficons : List.filter p [n] = ([] : List ℕ) := by simp [hpn]
      rw [hficons, List.append_nil]
      rcases Nat.eq_zero_or_pos ((List.range n).filter p).length with hz | hpos
      · have hfe : (List.range n).filter p = [] := List.length_eq_zero.mp hz
        rw [hfe]
        rfl
      · exfalso
        have hF := ih hup'
        have hmem : n - 1 ∈ (List.range n).filter p := by
          rw [hF, List.mem_range']
          refine ⟨((List.range n).filter p).length - 1, by omega, by omega⟩
        have hpn1 : p (n - 1) = true := (List.mem_filter.mp hmem).2
        have hptrue : p n = true := by
          have h2 := hup (n - 1) (by omega) hpn1
          rwa [show n - 1 + 1 = n by omega] at h2
        rw [hptrue] at hpn
        exact absurd hpn (by simp)

/-- Under non-decreasing bin values, the qualifying predicate
`start_times < iEnd` is upward closed in the bin index, so the qualifying
indices form the final segment of `range H`. -/
theorem qualIdx_eq_range' (binVals : List ℚ) (interval t iEnd : ℚ)
    (hmono : ∀ i, i + 1 < binVals.length →
      binVals.getD i 0 ≤ binVals.getD (i + 1) 0) :
    qualIdx binVals interval t iEnd =
      List.range'
        (binVals.length - (qualIdx binVals interval t iEnd).length)
        (qualIdx binVals interval t iEnd).length := by
  apply filter_upclosed_eq_range'
  intro i hi hp
  simp only [decide_eq_true_eq] at hp ⊢
  have hb := hmono i hi
  unfold start_times at hp ⊢
  have hdiv : binVals.getD i 0 / 1000 ≤ binVals.getD (i + 1) 0 / 1000 := by linarith
  linarith

/-- `getD` on a map over `range`. -/
theorem getD_map_range {α : Type} (f : ℕ → α) (L q : ℕ) (hq : q < L) (d : α) :
    ((List.range L).map f).getD q d = f q := by
  rw [List.getD_eq_getElem?_getD, List.getElem?_map, List.getElem?_range hq]
  rfl

/-- `getLast` through a `map` of a cons. -/
theorem getLast_map_cons {α β : Type} (f : α → β) (a : α) (l : List α) :
    (f a :: l.map f).getLast (by simp) = f ((a :: l).getLast (by simp)) := by
  induction l generalizing a with
  | nil => rfl
  | cons b t ih =>
    have hL : (f a :: f b :: t.map f).getLast (by simp) =
        (f b :: t.map f).getLast (by simp) := List.getLast_cons (by simp)
    have hR : (a :: b :: t).getLast (by simp) = (b :: t).getLast (by simp) :=
      List.getLast_cons (by simp)
    rw [List.map_cons, hL, hR]
    exact ih b

/-- Mapping over the qualifying indices is mapping over positions in the
final segment. -/
theorem qual_map_eq {α : Type} (binVals : List ℚ) (interval t iEnd : ℚ)
    (hmono : ∀ i, i + 1 < binVals.length →
      binVals.getD i 0 ≤ binVals.getD (i + 1) 0) (f : ℕ → α) :
    (qualIdx binVals interval t iEnd).map f =
      (List.range (qualIdx binVals interval t iEnd).length).map
        (fun q => f (binVals.length - (qualIdx binVals interval t iEnd).length + q)) := by
  conv_lhs => rw [qualIdx_eq_range' binVals interval t iEnd hmono]
  rw [List.range'_eq_map_range, List.map_map]
  rfl

/-- The non-zero positions of the filtered counts, re-expressed through the
absolute bin indices. -/
theorem qual_nz_eq (binVals : List ℚ) (interval t iEnd : ℚ)
    (hmono : ∀ i, i + 1 < binVals.length →
      binVals.getD i 0 ≤ binVals.getD (i + 1) 0) (hist : List ℕ) :
    (List.range ((qualIdx binVals interval t iEnd).map
        (fun i => hist.getD i 0)).length).filter
      (fun p => ((qualIdx binVals interval t iEnd).map
        (fun i => hist.getD i 0)).getD p 0 ≠ 0) =
    (List.range (qualIdx binVals interval t iEnd).length).filter
      (fun p => hist.getD
        (binVals.length - (qualIdx binVals interval t iEnd).length + p) 0 ≠ 0) := by
  rw [List.length_map]
  apply List.filter_congr
  intro p hp
  rw [List.mem_range] at hp
  rw [qual_map_eq binVals interval t iEnd hmono (fun i => hist.getD i 0),
    getD_map_range _ _ _ hp]

/-- The qualifying bins with non-zero counts, as absolute indices, are the
shifted non-zero positions. -/
theorem qual_nzAbs_eq (binVals : List ℚ) (interval t iEnd : ℚ)
    (hmono : ∀ i, i + 1 < binVals.length →
      binVals.getD i 0 ≤ binVals.getD (i + 1) 0) (hist : List ℕ) :
    (qualIdx binVals interval t iEnd).filter (fun i => hist.getD i 0 ≠ 0) =
      ((List.range (qualIdx binVals interval t iEnd).length).filter
        (fun p => hist.getD
          (binVals.length - (qualIdx binVals interval t iEnd).length + p) 0 ≠ 0)).map
        (fun p => binVals.length - (qualIdx binVals interval t iEnd).length + p) := by
  conv_lhs => rw [qualIdx_eq_range' binVals interval t iEnd hmono]
  rw [List.range'_eq_map_range, List.filter_map]
  rfl

/-- Per-sample form of the extreme updates, with the filtered-array positions
of the implementation translated into absolute bin indices: the `min` update
clamps at the lowest *qualifying* bin index, the `max` update at the last
table index. -/
theorem processSample_extremes (binVals lowerVals upperVals : List ℚ)
    (interval iStart iEnd : ℚ) (acc : IRes) (s : TRec)
    (hmono : ∀ i, i + 1 < binVals.length →
      binVals.getD i 0 ≤ binVals.getD (i + 1) 0) :
    ((processSample binVals lowerVals upperVals interval iStart iEnd acc s).mn =
      match (qualIdx binVals interval (s.time : ℚ) iEnd).filter
          (fun i => s.hist.getD i 0 ≠ 0) with
      | [] => acc.mn
      | a :: _ => some (update_extreme acc.mn min (lowerVals.getD
          (max ((qualIdx binVals interval (s.time : ℚ) iEnd).headD 0) (a - 1)) 0))) ∧
    ((processSample binVals lowerVals upperVals interval iStart iEnd acc s).mx =
      match (qualIdx binVals interval (s.time : ℚ) iEnd).filter
          (fun i => s.hist.getD i 0 ≠ 0) with
      | [] => acc.mx
      | a :: rest => some (update_extreme acc.mx max (upperVals.getD
          (min (binVals.length - 1) ((a :: rest).getLast (by simp) + 1)) 0))) := by
  have hq := qualIdx_eq_range' binVals interval (s.time : ℚ) iEnd hmono
  have hLH : (qualIdx binVals interval (s.time : ℚ) iEnd).length ≤ binVals.length := by
    have h := List.length_filter_le
      (fun i => decide (start_times binVals interval (s.time : ℚ) i < iEnd))
      (List.range binVals.length)
    simpa [qualIdx] using h
  have hnz := qual_nz_eq binVals interval (s.time : ℚ) iEnd hmono s.hist
  have hnzAbs := qual_nzAbs_eq binVals interval (s.time : ℚ) iEnd hmono s.hist
  simp only [processSample]
  rw [hnz, hnzAbs]
  cases hcase : (List.range (qualIdx binVals interval (s.time : ℚ) iEnd).length).filter
      (fun p => s.hist.getD
        (binVals.length - (qualIdx binVals interval (s.time : ℚ) iEnd).length + p) 0
        ≠ 0) with
  | nil => exact ⟨rfl, rfl⟩
  | cons p ps =>
    have hpmem : p ∈ (List.range
        (qualIdx binVals interval (s.time : ℚ) iEnd).length).filter
        (fun q => s.hist.getD
          (binVals.length - (qualIdx binVals interval (s.time : ℚ) iEnd).length + q) 0
          ≠ 0) := by
      rw [hcase]
      exact List.mem_cons_self _ _
    have hpL : p < (qualIdx binVals interval (s.time : ℚ) iEnd).length :=
      List.mem_range.mp (List.mem_filter.mp hpmem).1
    have hlast_mem : (p :: ps).getLast (by simp) ∈ (List.range
        (qualIdx binVals interval (s.time : ℚ) iEnd).length).filter
        (fun q => s.hist.getD
          (binVals.length - (qualIdx binVals interval (s.time : ℚ) iEnd).length + q) 0
          ≠ 0) := by
      rw [hcase]
      exact List.getLast_mem _
    have hlastL : (p :: ps).getLast (by simp) <
        (qualIdx binVals interval (s.time : ℚ) iEnd).length :=
      List.mem_range.mp (List.mem_filter.mp hlast_mem).1
    have hheadD : (qualIdx binVals interval (s.time : ℚ) iEnd).headD 0 =
        binVals.length - (qualIdx binVals interval (s.time : ℚ) iEnd).length := by
      obtain ⟨L', hL'⟩ : ∃ L',
          (qualIdx binVals interval (s.time : ℚ) iEnd).length = L' + 1 :=
        ⟨(qualIdx binVals interval (s.time : ℚ) iEnd).length - 1, by omega⟩
      conv_lhs => rw [hq, hL', List.range'_succ]
      rw [hL']
      simp
    simp only [List.map_cons, List.length_map]
    refine ⟨?_, ?_⟩
    · rw [qual_map_eq binVals interval (s.time : ℚ) iEnd hmono
        (fun i => lowerVals.getD i 0), getD_map_range _ _ _ (by omega), hheadD]
      have hidx : binVals.length - (qualIdx binVals interval (s.time : ℚ) iEnd).length
            + (p - 1) =
          max (binVals.length - (qualIdx binVals interval (s.time : ℚ) iEnd).length)
            (binVals.length - (qualIdx binVals interval (s.time : ℚ) iEnd).length
              + p - 1) := by
        omega
      rw [hidx]
    · rw [qual_map_eq binVals interval (s.time : ℚ) iEnd hmono
        (fun i => upperVals.getD i 0), getD_map_range _ _ _ (by omega),
        getLast_map_cons]
      have hidx : binVals.length - (qualIdx binVals interval (s.time : ℚ) iEnd).length
            + min ((qualIdx binVals interval (s.time : ℚ) iEnd).length - 1)
              ((p :: ps).getLast (by simp) + 1) =
          min (binVals.length - 1)
            (binVals.length - (qualIdx binVals interval (s.time : ℚ) iEnd).length
              + (p :: ps).getLast (by simp) + 1) := by
        omega
      rw [hidx]

/-- C5 (amended).  For non-decreasing bin values, the extremes computed by
`process_interval` are folds of per-sample candidates over the samples,
starting from unset (`none`), where for each sample with a non-zero count
among its qualifying bins: the `min` candidate is the lower bound of the bin
one index before the lowest non-zero-count qualifying bin, clamped at the
*lowest qualifying bin index* (not at absolute index 0 as claimed), and the
`max` candidate is the upper bound of the bin one index after the highest
non-zero-count qualifying bin, clamped at absolute index `H - 1`. -/
theorem c5_extremes_amended (binVals lowerVals upperVals : List ℚ)
    (interval iStart iEnd : ℚ) (samples : List TRec)
    (hmono : ∀ i, i + 1 < binVals.length →
      binVals.getD i 0 ≤ binVals.getD (i + 1) 0) :
    ((process_interval binVals lowerVals upperVals interval samples iStart iEnd).mn =
      samples.foldl (fun acc s =>
        match (qualIdx binVals interval (s.time : ℚ) iEnd).filter
            (fun i => s.hist.getD i 0 ≠ 0) with
        | [] => acc
        | a :: _ => some (update_extreme acc min (lowerVals.getD
            (max ((qualIdx binVals interval (s.time : ℚ) iEnd).headD 0) (a - 1)) 0)))
        none) ∧
    ((process_interval binVals lowerVals upperVals interval samples iStart iEnd).mx =
      samples.foldl (fun acc s =>
        match (qualIdx binVals interval (s.time : ℚ) iEnd).filter
            (fun i => s.hist.getD i 0 ≠ 0) with
        | [] => acc
        | a :: rest => some (update_extreme acc max (upperVals.getD
            (min (binVals.length - 1) ((a :: rest).getLast (by simp) + 1)) 0)))
        none) := by
  suffices h : ∀ (ss : List TRec) (acc : IRes),
      ((ss.foldl (processSample binVals lowerVals upperVals interval iStart iEnd)
          acc).mn =
        ss.foldl (fun acc s =>
          match (qualIdx binVals interval (s.time : ℚ) iEnd).filter
              (fun i => s.hist.getD i 0 ≠ 0) with
          | [] => acc
          | a :: _ => some (update_extreme acc min (lowerVals.getD
              (max ((qualIdx binVals interval (s.time : ℚ) iEnd).headD 0) (a - 1)) 0)))
          acc.mn) ∧
      ((ss.foldl (processSample binVals lowerVals upperVals interval iStart iEnd)
          acc).mx =
        ss.foldl (fun acc s =>
          match (qualIdx binVals interval (s.time : ℚ) iEnd).filter
              (fun i => s.hist.getD i 0 ≠ 0) with
          | [] => acc
          | a :: rest => some (update_extreme acc max (upperVals.getD
              (min (binVals.length - 1) ((a :: rest).getLast (by simp) + 1)) 0)))
          acc.mx) by
    exact ⟨(h samples ⟨0, none, none, List.replicate binVals.length 0⟩).1,
      (h samples ⟨0, none, none, List.replicate binVals.length 0⟩).2⟩
  intro ss
  induction ss with
  | nil => intro acc; exact ⟨rfl, rfl⟩
  | cons s rest ih =>
    intro acc
    obtain ⟨ih1, ih2⟩ :=
      ih (processSample binVals lowerVals upperVals interval iStart iEnd acc s)
    obtain ⟨hp1, hp2⟩ := processSample_extremes binVals lowerVals upperVals
      interval iStart iEnd acc s hmono
    constructor
    · rw [List.foldl_cons, List.foldl_cons, ih1, hp1]
    · rw [List.foldl_cons, List.foldl_cons, ih2, hp2]

set_option maxRecDepth 100000 in
/-- C5 (counterexample).  Real bin tables with `H = 256` at coarseness 0
(`group_nr = 4`), one sample at `end_time = 1001` with a single count in bin
253, interval width 1 and query interval `[999, 1000]`.  Only bins 253..255
qualify (`start_times < iEnd`), so the lowest non-zero-count qualifying bin
is 253, and it is also the lowest qualifying bin.  The claim predicts the
minimum extreme `lower[max(0, 253 - 1)] = lower[252] = 496`; the code indexes
the *filtered* lower-bound array at `max(0, 0 - 1) = 0` and produces
`lower[253] = 500 ≠ 496`. -/
theorem c5_counterexample :
    (process_interval
        ((List.range 256).map (fun i => plat_idx_to_val_coarse i 0 (1/2)))
        ((List.range 256).map (fun i => plat_idx_to_val_coarse i 0 0))
        ((List.range 256).map (fun i => plat_idx_to_val_coarse i 0 1))
        1 [⟨1001, 0, (List.range 256).map (fun i => if i = 253 then 1 else 0)⟩]
        999 1000).mn = some 500 ∧
    (qualIdx ((List.range 256).map (fun i => plat_idx_to_val_coarse i 0 (1/2)))
        1 1001 1000).filter
      (fun i => ((List.range 256).map
        (fun j => if j = 253 then 1 else 0) : List ℕ).getD i 0 ≠ 0) = [253] ∧
    ((List.range 256).map (fun i => plat_idx_to_val_coarse i 0 0)).getD
      (max 0 (253 - 1)) 0 = 496 ∧
    ((500 : ℚ) ≠ 496) := by
  refine ⟨?_, ?_, ?_, by norm_num⟩
  · with_unfolding_all decide
  · with_unfolding_all decide
  · with_unfolding_all decide

/-- Witness for `c5_extremes_amended`: a two-bin table and one sample whose
two bins both qualify and both have non-zero counts. -/
theorem c5_extremes_amended_witness :
    ((process_interval [0, 1] [10, 20] [30, 40] 0 [⟨1, 0, [1, 1]⟩] 0 2).mn =
      [(⟨1, 0, [1, 1]⟩ : TRec)].foldl (fun acc s =>
        match (qualIdx [0, 1] 0 (s.time : ℚ) 2).filter
            (fun i => s.hist.getD i 0 ≠ 0) with
        | [] => acc
        | a :: _ => some (update_extreme acc min (([10, 20] : List ℚ).getD
            (max ((qualIdx [0, 1] 0 (s.time : ℚ) 2).headD 0) (a - 1)) 0)))
        none) ∧
    ((process_interval [0, 1] [10, 20] [30, 40] 0 [⟨1, 0, [1, 1]⟩] 0 2).mx =
      [(⟨1, 0, [1, 1]⟩ : TRec)].foldl (fun acc s =>
        match (qualIdx [0, 1] 0 (s.time : ℚ) 2).filter
            (fun i => s.hist.getD i 0 ≠ 0) with
        | [] => acc
        | a :: rest => some (update_extreme acc max (([30, 40] : List ℚ).getD
            (min (([0, 1] : List ℚ).length - 1) ((a :: rest).getLast (by simp) + 1)) 0)))
        none) :=
  c5_extremes_amended [0, 1] [10, 20] [30, 40] 0 0 2 [⟨1, 0, [1, 1]⟩]
    (by
      intro i hi
      simp only [List.length_cons, List.length_nil] at hi
      have h0 : i = 0 := by omega
      subst h0
      norm_num)

end FioHist
